import Mathlib

/-!
Verification development for the libpopcnt repository (bit population count
library).  The C sources `src/libpopcnt.h` and `src/popcnt.h` are shallowly
embedded over `Nat`: machine words are natural numbers together with explicit
`% 2 ^ 64` (resp. `% 2 ^ 256`) wrap-arounds at every operation where the C
code can overflow, byte buffers are lists of naturals `< 256`, and memory is
an explicit partial map from addresses to bytes.
-/

namespace LibPopcnt

/-- Reference population count, fuel-based so that the kernel can evaluate it.
The first argument is fuel; `pcAux f x` is the number of 1 bits of `x`
whenever `x ≤ f`. -/
def pcAux : Nat → Nat → Nat
  | 0, _ => 0
  | f + 1, x => if x = 0 then 0 else x % 2 + pcAux f (x / 2)

/-- Reference population count (Hamming weight) of a natural number. -/
def popcount (x : Nat) : Nat := pcAux x x

theorem pcAux_congr : ∀ f g x, x ≤ f → x ≤ g → pcAux f x = pcAux g x := by
  intro f
  induction f with
  | zero =>
    intro g x hf _
    interval_cases x
    cases g <;> simp [pcAux]
  | succ f ih =>
    intro g x hf hg
    match g with
    | 0 =>
      interval_cases x
      simp [pcAux]
    | g + 1 =>
      by_cases hx : x = 0
      · simp [pcAux, hx]
      · have h2 : x / 2 ≤ f := by omega
        have h2' : x / 2 ≤ g := by omega
        simp [pcAux, hx, ih g (x / 2) h2 h2']

@[simp] theorem popcount_zero : popcount 0 = 0 := rfl

/-- Fundamental recurrence of the reference population count. -/
theorem popcount_eq (x : Nat) : popcount x = x % 2 + popcount (x / 2) := by
  by_cases hx : x = 0
  · simp [hx]
  · show pcAux x x = x % 2 + pcAux (x / 2) (x / 2)
    match x, hx with
    | x + 1, _ =>
      have h2 : (x + 1) / 2 ≤ x := by omega
      simp [pcAux, pcAux_congr x ((x + 1) / 2) ((x + 1) / 2) h2 le_rfl]

theorem popcount_le_of_lt_two_pow {x n : Nat} (h : x < 2 ^ n) : popcount x ≤ n := by
  induction n generalizing x with
  | zero =>
    interval_cases x
    simp
  | succ n ih =>
    rw [popcount_eq]
    have : x / 2 < 2 ^ n := by
      have := Nat.pow_succ 2 n
      omega
    have := ih this
    omega

/-- Population count splits along any cut of the binary representation. -/
theorem popcount_mul_two_pow_add (k : Nat) :
    ∀ a b : Nat, b < 2 ^ k → popcount (2 ^ k * a + b) = popcount a + popcount b := by
  induction k with
  | zero =>
    intro a b hb
    interval_cases b
    simp
  | succ k ih =>
    intro a b hb
    have hpow : 2 ^ (k + 1) * a = 2 * (2 ^ k * a) := by ring
    rw [popcount_eq (2 ^ (k + 1) * a + b)]
    have hmod : (2 ^ (k + 1) * a + b) % 2 = b % 2 := by
      rw [hpow]
      omega
    have hdiv : (2 ^ (k + 1) * a + b) / 2 = 2 ^ k * a + b / 2 := by
      rw [hpow]
      omega
    have hb2 : b / 2 < 2 ^ k := by omega
    rw [hmod, hdiv, ih a (b / 2) hb2, popcount_eq b]
    omega

theorem popcount_mul_two_pow (k a : Nat) : popcount (2 ^ k * a) = popcount a := by
  have := popcount_mul_two_pow_add k a 0 (Nat.pos_pow_of_pos k (by omega))
  simpa using this

/-- Population count as a sum of bits. -/
theorem popcount_eq_sum_testBit {n : Nat} :
    ∀ x : Nat, x < 2 ^ n → popcount x = ∑ i ∈ Finset.range n, (x.testBit i).toNat := by
  induction n with
  | zero =>
    intro x hx
    interval_cases x
    simp
  | succ n ih =>
    intro x hx
    rw [Finset.sum_range_succ']
    have hx2 : x / 2 < 2 ^ n := by
      have := Nat.pow_succ 2 n
      omega
    have hbit : ∀ i, (x.testBit (i + 1)).toNat = ((x / 2).testBit i).toNat := by
      intro i
      rw [Nat.testBit_add_one]
    have hzero : (x.testBit 0).toNat = x % 2 := by
      rcases Nat.mod_two_eq_zero_or_one x with h | h <;>
        simp [Nat.testBit_zero, h]
    calc popcount x = x % 2 + popcount (x / 2) := popcount_eq x
    _ = x % 2 + ∑ i ∈ Finset.range n, ((x / 2).testBit i).toNat := by rw [ih (x / 2) hx2]
    _ = (∑ i ∈ Finset.range n, (x.testBit (i + 1)).toNat) + (x.testBit 0).toNat := by
        rw [hzero]
        simp only [hbit]
        omega

/-! ### Byte decomposition of machine words -/

/-- Value of a little-endian list of bytes. -/
def bytesVal : List Nat → Nat
  | [] => 0
  | b :: bs => b + 256 * bytesVal bs

/-- The `n` little-endian bytes of `x`. -/
def toBytes : Nat → Nat → List Nat
  | 0, _ => []
  | n + 1, x => x % 256 :: toBytes n (x / 256)

/-- A 64-bit mask made of `n` copies of the byte `c`. -/
def maskRep (c : Nat) : Nat → Nat
  | 0 => 0
  | n + 1 => c + 256 * maskRep c n

@[simp] theorem bytesVal_nil : bytesVal [] = 0 := rfl

@[simp] theorem bytesVal_cons (b : Nat) (bs : List Nat) :
    bytesVal (b :: bs) = b + 256 * bytesVal bs := rfl

theorem bytesVal_toBytes : ∀ (n x : Nat), bytesVal (toBytes n x) = x % 256 ^ n := by
  intro n
  induction n with
  | zero => simp [toBytes, bytesVal, Nat.mod_one]
  | succ n ih =>
    intro x
    have h := ih (x / 256)
    have hpow : 256 ^ (n + 1) = 256 * 256 ^ n := by ring
    rw [hpow, Nat.mod_mul]
    simp only [toBytes, bytesVal_cons, h]

theorem toBytes_mem_lt : ∀ (n x : Nat), ∀ b ∈ toBytes n x, b < 256 := by
  intro n
  induction n with
  | zero => simp [toBytes]
  | succ n ih =>
    intro x b hb
    simp only [toBytes, List.mem_cons] at hb
    rcases hb with h | h
    · omega
    · exact ih (x / 256) b h

@[simp] theorem toBytes_length (n x : Nat) : (toBytes n x).length = n := by
  induction n generalizing x with
  | zero => rfl
  | succ n ih => simp [toBytes, ih]

theorem popcount_bytesVal :
    ∀ bs : List Nat, (∀ b ∈ bs, b < 256) → popcount (bytesVal bs) = (bs.map popcount).sum := by
  intro bs
  induction bs with
  | nil => simp
  | cons b rest ih =>
    intro h
    have hb : b < 256 := h b (by simp)
    have hrest := ih (fun x hx => h x (by simp [hx]))
    have hsplit : b + 256 * bytesVal rest = 2 ^ 8 * bytesVal rest + b := by ring
    simp only [bytesVal_cons, List.map_cons, List.sum_cons, hsplit]
    rw [popcount_mul_two_pow_add 8 (bytesVal rest) b (by omega), hrest]
    omega

/-- Bitwise AND distributes over a byte split of both operands. -/
theorem land_byte_split {a c : Nat} (ha : a < 256) (hc : c < 256) (b d : Nat) :
    (a + 256 * b) &&& (c + 256 * d) = (a &&& c) + 256 * (b &&& d) := by
  have ha8 : a < 2 ^ 8 := by omega
  have hc8 : c < 2 ^ 8 := by omega
  have h1 : a + 256 * b = 2 ^ 8 * b + a := by ring
  have h2 : c + 256 * d = 2 ^ 8 * d + c := by ring
  have hac : a &&& c < 2 ^ 8 := Nat.and_lt_two_pow a hc8
  have h3 : (a &&& c) + 256 * (b &&& d) = 2 ^ 8 * (b &&& d) + (a &&& c) := by ring
  rw [h1, h2, h3]
  apply Nat.eq_of_testBit_eq
  intro j
  rw [Nat.testBit_and, Nat.testBit_mul_pow_two_add b ha8 j, Nat.testBit_mul_pow_two_add d hc8 j,
    Nat.testBit_mul_pow_two_add (b &&& d) hac j]
  by_cases hj : j < 8 <;> simp [hj, Nat.testBit_and]

/-! ### The three mask-and-shift stages of `popcnt64_bitwise`, per byte -/

/-- First SWAR stage restricted to one byte. -/
def t1 (b : Nat) : Nat := b - ((b >>> 1) &&& 0x55)

/-- Second SWAR stage restricted to one byte. -/
def t2 (c : Nat) : Nat := (c &&& 0x33) + ((c >>> 2) &&& 0x33)

/-- Third SWAR stage restricted to one byte. -/
def t3 (d : Nat) : Nat := (d + (d >>> 4)) &&& 0x0F

theorem t1_lt (b : Nat) (hb : b < 256) : t1 b < 256 := by
  have : t1 b ≤ b := Nat.sub_le _ _
  omega

set_option maxRecDepth 4096 in
theorem byteFact1 : ∀ b < 256, ∀ e < 2, ((b >>> 1) + 128 * e) &&& 0x55 = (b >>> 1) &&& 0x55 := by
  decide

set_option maxRecDepth 4096 in
theorem byteFact1b : ∀ b < 256, (b >>> 1) &&& 0x55 ≤ b := by
  decide

set_option maxRecDepth 4096 in
theorem byteFact2 : ∀ c < 256, ∀ e < 4, ((c >>> 2) + 64 * e) &&& 0x33 = (c >>> 2) &&& 0x33 := by
  decide

set_option maxRecDepth 4096 in
theorem byteFact3 : ∀ c < 256, t2 c ≤ 102 ∧ t2 c % 16 ≤ 6 := by
  decide

/-- Stage 1 acts independently on each byte. -/
theorem stage1_bytes :
    ∀ bs : List Nat, (∀ b ∈ bs, b < 256) →
      ((bytesVal bs >>> 1) &&& maskRep 0x55 bs.length) ≤ bytesVal bs ∧
      bytesVal bs - ((bytesVal bs >>> 1) &&& maskRep 0x55 bs.length) = bytesVal (bs.map t1) := by
  intro bs
  induction bs with
  | nil => simp [maskRep]
  | cons b rest ih =>
    intro h
    have hb : b < 256 := h b (by simp)
    obtain ⟨ihle, iheq⟩ := ih (fun x hx => h x (by simp [hx]))
    set r := bytesVal rest with hr
    -- split the shifted value at the byte boundary
    have hshift : (b + 256 * r) >>> 1 = ((b >>> 1) + 128 * (r % 2)) + 256 * (r >>> 1) := by
      simp only [Nat.shiftRight_eq_div_pow, pow_one]
      omega
    have hlow : (b >>> 1) + 128 * (r % 2) < 256 := by
      simp only [Nat.shiftRight_eq_div_pow, pow_one]
      omega
    have hmask : (((b >>> 1) + 128 * (r % 2)) + 256 * (r >>> 1)) &&& maskRep 0x55 (rest.length + 1)
        = (((b >>> 1) + 128 * (r % 2)) &&& 0x55) + 256 * ((r >>> 1) &&& maskRep 0x55 rest.length) := by
      exact land_byte_split hlow (by omega) _ _
    have hbyte : ((b >>> 1) + 128 * (r % 2)) &&& 0x55 = (b >>> 1) &&& 0x55 :=
      byteFact1 b hb (r % 2) (by omega)
    have hble : (b >>> 1) &&& 0x55 ≤ b := byteFact1b b hb
    simp only [bytesVal_cons, List.length_cons, List.map_cons, hshift, hmask, hbyte, ← hr]
    constructor
    · omega
    · have ht1 : t1 b = b - ((b >>> 1) &&& 0x55) := rfl
      rw [← iheq] at *
      omega

/-- Stage 2 acts independently on each byte. -/
theorem stage2_bytes :
    ∀ cs : List Nat, (∀ c ∈ cs, c < 256) →
      (bytesVal cs &&& maskRep 0x33 cs.length) +
        ((bytesVal cs >>> 2) &&& maskRep 0x33 cs.length) = bytesVal (cs.map t2) := by
  intro cs
  induction cs with
  | nil => simp [maskRep]
  | cons c rest ih =>
    intro h
    have hc : c < 256 := h c (by simp)
    have iheq := ih (fun x hx => h x (by simp [hx]))
    set z := bytesVal rest with hz
    have hmask1 : (c + 256 * z) &&& maskRep 0x33 (rest.length + 1)
        = (c &&& 0x33) + 256 * (z &&& maskRep 0x33 rest.length) :=
      land_byte_split hc (by omega) _ _
    have hshift : (c + 256 * z) >>> 2 = ((c >>> 2) + 64 * (z % 4)) + 256 * (z >>> 2) := by
      simp only [Nat.shiftRight_eq_div_pow]
      omega
    have hlow : (c >>> 2) + 64 * (z % 4) < 256 := by
      simp only [Nat.shiftRight_eq_div_pow]
      omega
    have hmask2 : (((c >>> 2) + 64 * (z % 4)) + 256 * (z >>> 2)) &&& maskRep 0x33 (rest.length + 1)
        = (((c >>> 2) + 64 * (z % 4)) &&& 0x33) + 256 * ((z >>> 2) &&& maskRep 0x33 rest.length) :=
      land_byte_split hlow (by omega) _ _
    have hbyte : ((c >>> 2) + 64 * (z % 4)) &&& 0x33 = (c >>> 2) &&& 0x33 :=
      byteFact2 c hc (z % 4) (by omega)
    simp only [bytesVal_cons, List.length_cons, List.map_cons, hmask1, hshift, hmask2, hbyte, ← hz]
    have ht2 : t2 c = (c &&& 0x33) + ((c >>> 2) &&& 0x33) := rfl
    rw [← iheq] at *
    omega

/-- Stage 3 acts independently on each byte of a stage-2 image. -/
theorem stage3_bytes :
    ∀ cs : List Nat, (∀ c ∈ cs, c < 256) →
      (bytesVal (cs.map t2) + (bytesVal (cs.map t2) >>> 4)) &&& maskRep 0x0F cs.length =
        bytesVal (cs.map fun c => t3 (t2 c)) := by
  intro cs
  induction cs with
  | nil => simp [maskRep, bytesVal]
  | cons c rest ih =>
    intro h
    have hc : c < 256 := h c (by simp)
    have iheq := ih (fun x hx => h x (by simp [hx]))
    obtain ⟨hd1, hd2⟩ := byteFact3 c hc
    set d := t2 c with hd
    set w := bytesVal (rest.map t2) with hw
    -- the low nibble of the next byte is a stage-2 field, hence at most 6
    have hwlow : w % 16 ≤ 6 := by
      match rest with
      | [] => simp [hw, bytesVal]
      | c' :: rest' =>
        have hc' : c' < 256 := h c' (by simp)
        obtain ⟨_, hd2'⟩ := byteFact3 c' hc'
        have : w = t2 c' + 256 * bytesVal (rest'.map t2) := by simp [hw, bytesVal]
        omega
    have hshift : (d + 256 * w) >>> 4 = ((d >>> 4) + 16 * (w % 16)) + 256 * (w >>> 4) := by
      simp only [Nat.shiftRight_eq_div_pow]
      omega
    have hlow : d + ((d >>> 4) + 16 * (w % 16)) < 256 := by
      simp only [Nat.shiftRight_eq_div_pow]
      omega
    have hsum : (d + 256 * w) + ((d + 256 * w) >>> 4)
        = (d + ((d >>> 4) + 16 * (w % 16))) + 256 * (w + (w >>> 4)) := by
      rw [hshift]
      ring
    have hmask : ((d + ((d >>> 4) + 16 * (w % 16)))) + 256 * (w + (w >>> 4)) &&&
          maskRep 0x0F (rest.length + 1)
        = ((d + ((d >>> 4) + 16 * (w % 16))) &&& 0x0F) +
            256 * ((w + (w >>> 4)) &&& maskRep 0x0F rest.length) :=
      land_byte_split hlow (by omega) _ _
    have hnib : (d + ((d >>> 4) + 16 * (w % 16))) &&& 0x0F = (d + (d >>> 4)) &&& 0x0F := by
      have e1 : (d + ((d >>> 4) + 16 * (w % 16))) &&& 0x0F
          = (d + ((d >>> 4) + 16 * (w % 16))) % 16 := Nat.and_pow_two_sub_one_eq_mod _ 4
      have e2 : (d + (d >>> 4)) &&& 0x0F = (d + (d >>> 4)) % 16 :=
        Nat.and_pow_two_sub_one_eq_mod _ 4
      rw [e1, e2]
      omega
    have ht3 : t3 d = (d + (d >>> 4)) &&& 0x0F := rfl
    simp only [List.map_cons, bytesVal_cons, List.length_cons, ← hd, ← hw, hsum, hmask, hnib,
      ← iheq, ht3]

/-! ### The portable word counter `popcnt64_bitwise` (src/libpopcnt.h lines 165-177) -/

/-- Embedding of `popcnt64_bitwise` from src/libpopcnt.h.  The constants
`m1 = 0x5555555555555555`, `m2 = 0x3333333333333333`, `m4 = 0x0F0F0F0F0F0F0F0F`
and `h01 = 0x0101010101010101` are inlined; each intermediate assignment is
64-bit unsigned arithmetic, hence the explicit `% 2 ^ 64` wrap-arounds:
`x -= (x >> 1) & m1; x = (x & m2) + ((x >> 2) & m2); x = (x + (x >> 4)) & m4;
return (x * h01) >> 56;`. -/
def popcnt64_bitwise (x : Nat) : Nat :=
  let x1 := (x + 2 ^ 64 - ((x >>> 1) &&& 0x5555555555555555)) % 2 ^ 64
  let x2 := ((x1 &&& 0x3333333333333333) + ((x1 >>> 2) &&& 0x3333333333333333)) % 2 ^ 64
  let x3 := ((x2 + (x2 >>> 4)) % 2 ^ 64) &&& 0x0F0F0F0F0F0F0F0F
  ((x3 * 0x0101010101010101) % 2 ^ 64) >>> 56

set_option maxRecDepth 4096 in
theorem byteFactPc : ∀ b < 256, t3 (t2 (t1 b)) = popcount b ∧ t3 (t2 (t1 b)) ≤ 8 := by
  decide

/-- The final multiply-and-shift sums the eight byte fields. -/
theorem mul_h01_sum :
    ∀ cs : List Nat, cs.length = 8 → (∀ c ∈ cs, c ≤ 8) →
      ((bytesVal cs * 0x0101010101010101) % 2 ^ 64) >>> 56 = cs.sum := by
  intro cs hlen hle
  match cs, hlen with
  | [c0, c1, c2, c3, c4, c5, c6, c7], _ =>
    have h0 : c0 ≤ 8 := hle c0 (by simp)
    have h1 : c1 ≤ 8 := hle c1 (by simp)
    have h2 : c2 ≤ 8 := hle c2 (by simp)
    have h3 : c3 ≤ 8 := hle c3 (by simp)
    have h4 : c4 ≤ 8 := hle c4 (by simp)
    have h5 : c5 ≤ 8 := hle c5 (by simp)
    have h6 : c6 ≤ 8 := hle c6 (by simp)
    have h7 : c7 ≤ 8 := hle c7 (by simp)
    simp only [bytesVal_cons, bytesVal_nil, List.sum_cons, List.sum_nil,
      Nat.shiftRight_eq_div_pow]
    -- split the 128-bit product into its low and high 64-bit halves
    have key : (c0 + 256 * (c1 + 256 * (c2 + 256 * (c3 + 256 * (c4 + 256 *
          (c5 + 256 * (c6 + 256 * (c7 + 256 * 0)))))))) * 72340172838076673
        = (c0 + 256 * (c0 + c1) + 65536 * (c0 + c1 + c2) + 16777216 * (c0 + c1 + c2 + c3)
            + 4294967296 * (c0 + c1 + c2 + c3 + c4)
            + 1099511627776 * (c0 + c1 + c2 + c3 + c4 + c5)
            + 281474976710656 * (c0 + c1 + c2 + c3 + c4 + c5 + c6)
            + 72057594037927936 * (c0 + c1 + c2 + c3 + c4 + c5 + c6 + c7))
          + 2 ^ 64 * ((c1 + c2 + c3 + c4 + c5 + c6 + c7)
            + 256 * (c2 + c3 + c4 + c5 + c6 + c7) + 65536 * (c3 + c4 + c5 + c6 + c7)
            + 16777216 * (c4 + c5 + c6 + c7) + 4294967296 * (c5 + c6 + c7)
            + 1099511627776 * (c6 + c7) + 281474976710656 * c7) := by
      ring
    have hLlt : c0 + 256 * (c0 + c1) + 65536 * (c0 + c1 + c2) + 16777216 * (c0 + c1 + c2 + c3)
        + 4294967296 * (c0 + c1 + c2 + c3 + c4)
        + 1099511627776 * (c0 + c1 + c2 + c3 + c4 + c5)
        + 281474976710656 * (c0 + c1 + c2 + c3 + c4 + c5 + c6)
        + 72057594037927936 * (c0 + c1 + c2 + c3 + c4 + c5 + c6 + c7) < 2 ^ 64 := by
      omega
    rw [key, Nat.add_mul_mod_self_left, Nat.mod_eq_of_lt hLlt]
    clear key hle
    omega

/-- An upper bound for a byte list whose entries are all bounded. -/
theorem bytesVal_le_maskRep {m : Nat} :
    ∀ ds : List Nat, (∀ d ∈ ds, d ≤ m) → bytesVal ds ≤ maskRep m ds.length := by
  intro ds
  induction ds with
  | nil => simp [maskRep]
  | cons d rest ih =>
    intro h
    have hd := h d (by simp)
    have hr := ih (fun y hy => h y (by simp [hy]))
    simp only [bytesVal_cons, maskRep, List.length_cons]
    omega

/-- Correctness of the portable SWAR word counter: for every 64-bit word it
computes the exact population count. -/
theorem popcnt64_bitwise_eq_popcount {x : Nat} (hx : x < 2 ^ 64) :
    popcnt64_bitwise x = popcount x := by
  have hbytes : ∀ b ∈ toBytes 8 x, b < 256 := toBytes_mem_lt 8 x
  have hx8 : bytesVal (toBytes 8 x) = x := by
    rw [bytesVal_toBytes]
    have : (256 : Nat) ^ 8 = 2 ^ 64 := by norm_num
    omega
  set bs := toBytes 8 x with hbs
  have hlen : bs.length = 8 := toBytes_length 8 x
  -- stage 1
  obtain ⟨hs1le, hs1⟩ := stage1_bytes bs hbytes
  have hm1 : maskRep 0x55 8 = 0x5555555555555555 := by decide
  have hsub : (x + 2 ^ 64 - ((x >>> 1) &&& 0x5555555555555555)) % 2 ^ 64
      = bytesVal (bs.map t1) := by
    rw [← hs1, ← hx8]
    rw [hlen, hm1] at hs1le ⊢
    omega
  -- stage 2
  have ht1mem : ∀ c ∈ bs.map t1, c < 256 := by
    intro c hc
    obtain ⟨b, hb, rfl⟩ := List.mem_map.mp hc
    exact t1_lt b (hbytes b hb)
  have hs2 := stage2_bytes (bs.map t1) ht1mem
  have hm2 : maskRep 0x33 8 = 0x3333333333333333 := by decide
  have hlen1 : (bs.map t1).length = 8 := by simp [hlen]
  rw [hlen1, hm2] at hs2
  have hnw2 : (bytesVal (bs.map t1) &&& 0x3333333333333333) +
      ((bytesVal (bs.map t1) >>> 2) &&& 0x3333333333333333) < 2 ^ 64 := by
    have ha := Nat.and_le_right (n := bytesVal (bs.map t1)) (m := 0x3333333333333333)
    have hb := Nat.and_le_right (n := bytesVal (bs.map t1) >>> 2) (m := 0x3333333333333333)
    omega
  have hstep2 : ((bytesVal (bs.map t1) &&& 0x3333333333333333) +
      ((bytesVal (bs.map t1) >>> 2) &&& 0x3333333333333333)) % 2 ^ 64
      = bytesVal ((bs.map t1).map t2) := by
    rw [Nat.mod_eq_of_lt hnw2, hs2]
  -- stage 3
  have hs3 := stage3_bytes (bs.map t1) ht1mem
  have hm4 : maskRep 0x0F 8 = 0x0F0F0F0F0F0F0F0F := by decide
  rw [hlen1, hm4] at hs3
  have ht2mem : ∀ d ∈ (bs.map t1).map t2, d ≤ 102 := by
    intro d hd
    obtain ⟨c, hc, rfl⟩ := List.mem_map.mp hd
    exact (byteFact3 c (ht1mem c hc)).1
  have hx2le : bytesVal ((bs.map t1).map t2) ≤ maskRep 102 8 := by
    have := bytesVal_le_maskRep ((bs.map t1).map t2) ht2mem
    simpa [hlen] using this
  have hrep : maskRep 102 8 = 0x6666666666666666 := by decide
  have hnw3 : bytesVal ((bs.map t1).map t2) + (bytesVal ((bs.map t1).map t2) >>> 4) < 2 ^ 64 := by
    have hshr : bytesVal ((bs.map t1).map t2) >>> 4 ≤ bytesVal ((bs.map t1).map t2) := by
      rw [Nat.shiftRight_eq_div_pow]
      exact Nat.div_le_self _ _
    rw [hrep] at hx2le
    omega
  have hstep3 : ((bytesVal ((bs.map t1).map t2) + (bytesVal ((bs.map t1).map t2) >>> 4)) % 2 ^ 64)
      &&& 0x0F0F0F0F0F0F0F0F = bytesVal ((bs.map t1).map fun c => t3 (t2 c)) := by
    rw [Nat.mod_eq_of_lt hnw3, hs3]
  -- final stage
  have hpcmem : ∀ c ∈ (bs.map t1).map (fun c => t3 (t2 c)), c ≤ 8 := by
    intro c hc
    obtain ⟨d, hd, rfl⟩ := List.mem_map.mp hc
    obtain ⟨b, hb, rfl⟩ := List.mem_map.mp hd
    exact (byteFactPc b (hbytes b hb)).2
  have hfin := mul_h01_sum ((bs.map t1).map fun c => t3 (t2 c)) (by simp [hlen]) hpcmem
  -- assemble
  have hsum : (((bs.map t1).map fun c => t3 (t2 c)).sum) = popcount x := by
    have hmaps : ((bs.map t1).map fun c => t3 (t2 c)) = bs.map fun b => t3 (t2 (t1 b)) := by
      simp [List.map_map, Function.comp]
    have hcong : (bs.map fun b => t3 (t2 (t1 b))) = bs.map popcount := by
      apply List.map_congr_left
      intro b hb
      exact (byteFactPc b (hbytes b hb)).1
    rw [hmaps, hcong, ← popcount_bytesVal bs hbytes, hx8]
  simp only [popcnt64_bitwise]
  rw [hsub, hstep2, hstep3, hfin, hsum]

/-! ### The hardware word counter `popcnt64` (src/libpopcnt.h lines 179-241) -/

/-- The compile-time selected implementation of `popcnt64` in src/libpopcnt.h:
inline asm on x86-64, a pair of 32-bit counts on i386 and 32-bit MSVC,
`__popcnt64` on 64-bit MSVC, `__builtin_popcountll` elsewhere, and
`popcnt64_bitwise` as the final fallback. -/
inductive Popcnt64Impl
  | asm_x86_64
  | asm_i386
  | msvc_x64
  | msvc_i386
  | builtin
  | bitwise_fallback

/-- Embedding of the `popcnt64` variants of src/libpopcnt.h.  The leaf
hardware primitives are modelled by their architectural semantics: the x86
`popcnt` instruction, `__popcnt64`/`__popcnt` and `__builtin_popcount(ll)`
all return the exact population count of their operand, and the C casts
`(uint32_t) x` and `(uint32_t)(x >> 32)` truncate to 32 bits. -/
def popcnt64 : Popcnt64Impl → Nat → Nat
  | .asm_x86_64, x => popcount x
  | .asm_i386, x => popcount (x % 2 ^ 32) + popcount ((x >>> 32) % 2 ^ 32)
  | .msvc_x64, x => popcount x
  | .msvc_i386, x => popcount (x % 2 ^ 32) + popcount ((x >>> 32) % 2 ^ 32)
  | .builtin, x => popcount x
  | .bitwise_fallback, x => popcnt64_bitwise x

theorem popcount_split_32 {x : Nat} (hx : x < 2 ^ 64) :
    popcount x = popcount (x % 2 ^ 32) + popcount ((x >>> 32) % 2 ^ 32) := by
  have hdecomp : x = 2 ^ 32 * (x >>> 32) + x % 2 ^ 32 := by
    rw [Nat.shiftRight_eq_div_pow]
    omega
  have hlt : x % 2 ^ 32 < 2 ^ 32 := Nat.mod_lt _ (by norm_num)
  have hhi : (x >>> 32) % 2 ^ 32 = x >>> 32 := by
    rw [Nat.shiftRight_eq_div_pow]
    apply Nat.mod_eq_of_lt
    omega
  calc popcount x = popcount (2 ^ 32 * (x >>> 32) + x % 2 ^ 32) := by rw [← hdecomp]
  _ = popcount (x >>> 32) + popcount (x % 2 ^ 32) := popcount_mul_two_pow_add 32 _ _ hlt
  _ = popcount (x % 2 ^ 32) + popcount ((x >>> 32) % 2 ^ 32) := by rw [hhi]; omega

end LibPopcnt

namespace PopcntH

/-- Embedding of the portable `popcnt64` of src/popcnt.h (lines 58-70, the
branch compiled when no hardware popcount is available).  The source declares
the constant `m = 0x0F0F0F0F0F0F0F0F` but refers to it as `m4` in the third
assignment (a naming slip); we read both names as that declared constant.
The body is then identical to `LibPopcnt.popcnt64_bitwise`. -/
def popcnt64 (x : Nat) : Nat :=
  let x1 := (x + 2 ^ 64 - ((x >>> 1) &&& 0x5555555555555555)) % 2 ^ 64
  let x2 := ((x1 &&& 0x3333333333333333) + ((x1 >>> 2) &&& 0x3333333333333333)) % 2 ^ 64
  let x3 := ((x2 + (x2 >>> 4)) % 2 ^ 64) &&& 0x0F0F0F0F0F0F0F0F
  ((x3 * 0x0101010101010101) % 2 ^ 64) >>> 56

theorem popcnt64_eq_bitwise (x : Nat) : popcnt64 x = LibPopcnt.popcnt64_bitwise x := rfl

theorem popcnt64_eq_popcount {x : Nat} (hx : x < 2 ^ 64) :
    popcnt64 x = LibPopcnt.popcount x := by
  rw [popcnt64_eq_bitwise]
  exact LibPopcnt.popcnt64_bitwise_eq_popcount hx

/-- Embedding of `CSA` from src/popcnt.h (lines 72-77); the two output
parameters `h` and `l` become the two components of the returned pair. -/
def CSA (a b c : Nat) : Nat × Nat :=
  let u := a ^^^ b
  ((a &&& b) ||| (u &&& c), u ^^^ c)

/-- The carry-save adder compresses three addends into a carry word and a sum
word: counting the carry twice and the sum once recovers the three input
population counts exactly. -/
theorem CSA_spec {n a b c : Nat} (ha : a < 2 ^ n) (hb : b < 2 ^ n) (hc : c < 2 ^ n) :
    (CSA a b c).1 < 2 ^ n ∧ (CSA a b c).2 < 2 ^ n ∧
      2 * LibPopcnt.popcount (CSA a b c).1 + LibPopcnt.popcount (CSA a b c).2
        = LibPopcnt.popcount a + LibPopcnt.popcount b + LibPopcnt.popcount c := by
  have hh : (CSA a b c).1 < 2 ^ n :=
    Nat.or_lt_two_pow (Nat.and_lt_two_pow a hb) (Nat.and_lt_two_pow _ hc)
  have hl : (CSA a b c).2 < 2 ^ n := Nat.xor_lt_two_pow (Nat.xor_lt_two_pow ha hb) hc
  refine ⟨hh, hl, ?_⟩
  rw [LibPopcnt.popcount_eq_sum_testBit _ hh, LibPopcnt.popcount_eq_sum_testBit _ hl,
    LibPopcnt.popcount_eq_sum_testBit _ ha, LibPopcnt.popcount_eq_sum_testBit _ hb,
    LibPopcnt.popcount_eq_sum_testBit _ hc]
  have hpt : ∀ i ∈ Finset.range n,
      2 * (((CSA a b c).1.testBit i).toNat) + (((CSA a b c).2.testBit i).toNat)
        = (a.testBit i).toNat + (b.testBit i).toNat + (c.testBit i).toNat := by
    intro i _
    simp only [CSA, Nat.testBit_or, Nat.testBit_and, Nat.testBit_xor]
    cases a.testBit i <;> cases b.testBit i <;> cases c.testBit i <;> rfl
  calc 2 * (∑ i ∈ Finset.range n, (((CSA a b c).1.testBit i).toNat))
        + ∑ i ∈ Finset.range n, (((CSA a b c).2.testBit i).toNat)
      = ∑ i ∈ Finset.range n, (2 * (((CSA a b c).1.testBit i).toNat)
          + (((CSA a b c).2.testBit i).toNat)) := by
        rw [Finset.sum_add_distrib, Finset.mul_sum]
  _ = ∑ i ∈ Finset.range n, ((a.testBit i).toNat + (b.testBit i).toNat + (c.testBit i).toNat) :=
        Finset.sum_congr rfl hpt
  _ = _ := by rw [Finset.sum_add_distrib, Finset.sum_add_distrib]

/-- The mutable locals of `popcnt_harley_seal` (src/popcnt.h lines 90-92). -/
structure HSState where
  total : Nat
  ones : Nat
  twos : Nat
  fours : Nat
  eights : Nat
  sixteens : Nat

/-- The fifteen `CSA` calls of one iteration of the Harley-Seal main loop
(src/popcnt.h lines 98-112), in source order.  `p1..p8` are the successive
(`twosA`/`twosB`, `ones`) pairs, `q1..q4` the (`foursA`/`foursB`, `twos`)
pairs, `r1`/`r2` the (`eightsA`/`eightsB`, `fours`) pairs and `s1` the final
(`sixteens`, `eights`) pair. -/
def hsCascade (st : HSState)
    (d0 d1 d2 d3 d4 d5 d6 d7 d8 d9 d10 d11 d12 d13 d14 d15 : Nat) : HSState :=
  let p1 := CSA st.ones d0 d1
  let p2 := CSA p1.2 d2 d3
  let q1 := CSA st.twos p1.1 p2.1
  let p3 := CSA p2.2 d4 d5
  let p4 := CSA p3.2 d6 d7
  let q2 := CSA q1.2 p3.1 p4.1
  let r1 := CSA st.fours q1.1 q2.1
  let p5 := CSA p4.2 d8 d9
  let p6 := CSA p5.2 d10 d11
  let q3 := CSA q2.2 p5.1 p6.1
  let p7 := CSA p6.2 d12 d13
  let p8 := CSA p7.2 d14 d15
  let q4 := CSA q3.2 p7.1 p8.1
  let r2 := CSA r1.2 q3.1 q4.1
  let s1 := CSA st.eights r1.1 r2.1
  { total := st.total, ones := p8.2, twos := q4.2, fours := r2.2,
    eights := s1.2, sixteens := s1.1 }

/-- One full iteration of the main loop: the CSA cascade followed by
`total += popcnt64(sixteens)` (64-bit addition). -/
def hsStep (st : HSState)
    (d0 d1 d2 d3 d4 d5 d6 d7 d8 d9 d10 d11 d12 d13 d14 d15 : Nat) : HSState :=
  let st' := hsCascade st d0 d1 d2 d3 d4 d5 d6 d7 d8 d9 d10 d11 d12 d13 d14 d15
  { st' with total := (st'.total + popcnt64 st'.sixteens) % 2 ^ 64 }

/-- The main loop of `popcnt_harley_seal`: the C loop bound
`limit = size - size % 16` means the body runs exactly while at least 16
words remain.  Returns the final state and the unconsumed remainder. -/
def hsLoop : HSState → List Nat → HSState × List Nat
  | st, d0 :: d1 :: d2 :: d3 :: d4 :: d5 :: d6 :: d7 ::
      d8 :: d9 :: d10 :: d11 :: d12 :: d13 :: d14 :: d15 :: rest =>
    hsLoop (hsStep st d0 d1 d2 d3 d4 d5 d6 d7 d8 d9 d10 d11 d12 d13 d14 d15) rest
  | st, rest => (st, rest)

/-- Embedding of `popcnt_harley_seal` (src/popcnt.h lines 85-127).  The input
is the word array `data[0..size)`; every arithmetic accumulation is 64-bit. -/
def popcnt_harley_seal (data : List Nat) : Nat :=
  if data.length = 0 then 0
  else
    let sr := hsLoop ⟨0, 0, 0, 0, 0, 0⟩ data
    let total := sr.1.total * 16 % 2 ^ 64
    let total := (total + 8 * popcnt64 sr.1.eights) % 2 ^ 64
    let total := (total + 4 * popcnt64 sr.1.fours) % 2 ^ 64
    let total := (total + 2 * popcnt64 sr.1.twos) % 2 ^ 64
    let total := (total + 1 * popcnt64 sr.1.ones) % 2 ^ 64
    sr.2.foldl (fun t d => (t + popcnt64 d) % 2 ^ 64) total

/-- Total population count of a word list. -/
def pcSum (ws : List Nat) : Nat := (ws.map LibPopcnt.popcount).sum

/-- The loop invariant quantity: the CSA registers weighted by their powers of
two, plus the running total in bit units (each unit of the C variable `total`
stands for 16 bits, since the loop banks `popcnt64(sixteens)` and the epilogue
multiplies by 16). -/
def hsWeight (st : HSState) : Nat :=
  LibPopcnt.popcount st.ones + 2 * LibPopcnt.popcount st.twos +
    4 * LibPopcnt.popcount st.fours + 8 * LibPopcnt.popcount st.eights + 16 * st.total

/-- Register bounds: all CSA registers are 64-bit words. -/
def hsBounded (st : HSState) : Prop :=
  st.ones < 2 ^ 64 ∧ st.twos < 2 ^ 64 ∧ st.fours < 2 ^ 64 ∧ st.eights < 2 ^ 64

/-- The CSA cascade of one Harley-Seal iteration preserves the weighted
count: the five output registers, weighted 1/2/4/8/16, hold exactly the bits
of the old four registers plus the sixteen new words. -/
theorem hsCascade_spec {st : HSState}
    {d0 d1 d2 d3 d4 d5 d6 d7 d8 d9 d10 d11 d12 d13 d14 d15 : Nat}
    (hb : hsBounded st)
    (h0 : d0 < 2 ^ 64) (h1 : d1 < 2 ^ 64) (h2 : d2 < 2 ^ 64) (h3 : d3 < 2 ^ 64)
    (h4 : d4 < 2 ^ 64) (h5 : d5 < 2 ^ 64) (h6 : d6 < 2 ^ 64) (h7 : d7 < 2 ^ 64)
    (h8 : d8 < 2 ^ 64) (h9 : d9 < 2 ^ 64) (h10 : d10 < 2 ^ 64) (h11 : d11 < 2 ^ 64)
    (h12 : d12 < 2 ^ 64) (h13 : d13 < 2 ^ 64) (h14 : d14 < 2 ^ 64) (h15 : d15 < 2 ^ 64) :
    (hsCascade st d0 d1 d2 d3 d4 d5 d6 d7 d8 d9 d10 d11 d12 d13 d14 d15).total = st.total ∧
    hsBounded (hsCascade st d0 d1 d2 d3 d4 d5 d6 d7 d8 d9 d10 d11 d12 d13 d14 d15) ∧
    (hsCascade st d0 d1 d2 d3 d4 d5 d6 d7 d8 d9 d10 d11 d12 d13 d14 d15).sixteens < 2 ^ 64 ∧
    LibPopcnt.popcount (hsCascade st d0 d1 d2 d3 d4 d5 d6 d7 d8 d9 d10 d11 d12 d13 d14
        d15).ones
      + 2 * LibPopcnt.popcount (hsCascade st d0 d1 d2 d3 d4 d5 d6 d7 d8 d9 d10 d11 d12 d13
        d14 d15).twos
      + 4 * LibPopcnt.popcount (hsCascade st d0 d1 d2 d3 d4 d5 d6 d7 d8 d9 d10 d11 d12 d13
        d14 d15).fours
      + 8 * LibPopcnt.popcount (hsCascade st d0 d1 d2 d3 d4 d5 d6 d7 d8 d9 d10 d11 d12 d13
        d14 d15).eights
      + 16 * LibPopcnt.popcount (hsCascade st d0 d1 d2 d3 d4 d5 d6 d7 d8 d9 d10 d11 d12 d13
        d14 d15).sixteens
      = LibPopcnt.popcount st.ones + 2 * LibPopcnt.popcount st.twos
        + 4 * LibPopcnt.popcount st.fours + 8 * LibPopcnt.popcount st.eights
        + pcSum [d0, d1, d2, d3, d4, d5, d6, d7, d8, d9, d10, d11, d12, d13, d14, d15] := by
  obtain ⟨hOnes, hTwos, hFours, hEights⟩ := hb
  obtain ⟨hp1h, hp1l, ep1⟩ := CSA_spec hOnes h0 h1
  obtain ⟨hp2h, hp2l, ep2⟩ := CSA_spec hp1l h2 h3
  obtain ⟨hq1h, hq1l, eq1⟩ := CSA_spec hTwos hp1h hp2h
  obtain ⟨hp3h, hp3l, ep3⟩ := CSA_spec hp2l h4 h5
  obtain ⟨hp4h, hp4l, ep4⟩ := CSA_spec hp3l h6 h7
  obtain ⟨hq2h, hq2l, eq2⟩ := CSA_spec hq1l hp3h hp4h
  obtain ⟨hr1h, hr1l, er1⟩ := CSA_spec hFours hq1h hq2h
  obtain ⟨hp5h, hp5l, ep5⟩ := CSA_spec hp4l h8 h9
  obtain ⟨hp6h, hp6l, ep6⟩ := CSA_spec hp5l h10 h11
  obtain ⟨hq3h, hq3l, eq3⟩ := CSA_spec hq2l hp5h hp6h
  obtain ⟨hp7h, hp7l, ep7⟩ := CSA_spec hp6l h12 h13
  obtain ⟨hp8h, hp8l, ep8⟩ := CSA_spec hp7l h14 h15
  obtain ⟨hq4h, hq4l, eq4⟩ := CSA_spec hq3l hp7h hp8h
  obtain ⟨hr2h, hr2l, er2⟩ := CSA_spec hr1l hq3h hq4h
  obtain ⟨hs1h, hs1l, es1⟩ := CSA_spec hEights hr1h hr2h
  refine ⟨rfl, ?_⟩
  simp only [hsBounded, hsCascade, pcSum, List.map_cons, List.map_nil,
    List.sum_cons, List.sum_nil]
  refine ⟨⟨hp8l, hq4l, hr2l, hs1l⟩, hs1h, ?_⟩
  omega

theorem hsStep_spec {st : HSState} {d0 d1 d2 d3 d4 d5 d6 d7 d8 d9 d10 d11 d12 d13 d14 d15 : Nat}
    (hb : hsBounded st)
    (h0 : d0 < 2 ^ 64) (h1 : d1 < 2 ^ 64) (h2 : d2 < 2 ^ 64) (h3 : d3 < 2 ^ 64)
    (h4 : d4 < 2 ^ 64) (h5 : d5 < 2 ^ 64) (h6 : d6 < 2 ^ 64) (h7 : d7 < 2 ^ 64)
    (h8 : d8 < 2 ^ 64) (h9 : d9 < 2 ^ 64) (h10 : d10 < 2 ^ 64) (h11 : d11 < 2 ^ 64)
    (h12 : d12 < 2 ^ 64) (h13 : d13 < 2 ^ 64) (h14 : d14 < 2 ^ 64) (h15 : d15 < 2 ^ 64)
    (hw : hsWeight st + pcSum [d0, d1, d2, d3, d4, d5, d6, d7, d8, d9, d10, d11, d12, d13,
      d14, d15] < 2 ^ 64) :
    hsBounded (hsStep st d0 d1 d2 d3 d4 d5 d6 d7 d8 d9 d10 d11 d12 d13 d14 d15) ∧
      hsWeight (hsStep st d0 d1 d2 d3 d4 d5 d6 d7 d8 d9 d10 d11 d12 d13 d14 d15)
        = hsWeight st + pcSum [d0, d1, d2, d3, d4, d5, d6, d7, d8, d9, d10, d11, d12, d13,
          d14, d15] := by
  obtain ⟨htot, hb', hsix, heq⟩ := hsCascade_spec hb h0 h1 h2 h3 h4 h5 h6 h7 h8 h9 h10
    h11 h12 h13 h14 h15
  obtain ⟨hO', hT', hF', hE'⟩ := hb'
  simp only [hsBounded, hsWeight, hsStep, pcSum, List.map_cons, List.map_nil,
    List.sum_cons, List.sum_nil] at hw heq ⊢
  rw [popcnt64_eq_popcount hsix, htot]
  refine ⟨⟨hO', hT', hF', hE'⟩, ?_⟩
  omega

theorem hsLoop_short (st : HSState) :
    ∀ data : List Nat, data.length < 16 → hsLoop st data = (st, data) := by
  intro data h
  match data with
  | [] => rfl
  | [a0] => rfl
  | [a0, a1] => rfl
  | [a0, a1, a2] => rfl
  | [a0, a1, a2, a3] => rfl
  | [a0, a1, a2, a3, a4] => rfl
  | [a0, a1, a2, a3, a4, a5] => rfl
  | [a0, a1, a2, a3, a4, a5, a6] => rfl
  | [a0, a1, a2, a3, a4, a5, a6, a7] => rfl
  | [a0, a1, a2, a3, a4, a5, a6, a7, a8] => rfl
  | [a0, a1, a2, a3, a4, a5, a6, a7, a8, a9] => rfl
  | [a0, a1, a2, a3, a4, a5, a6, a7, a8, a9, a10] => rfl
  | [a0, a1, a2, a3, a4, a5, a6, a7, a8, a9, a10, a11] => rfl
  | [a0, a1, a2, a3, a4, a5, a6, a7, a8, a9, a10, a11, a12] => rfl
  | [a0, a1, a2, a3, a4, a5, a6, a7, a8, a9, a10, a11, a12, a13] => rfl
  | [a0, a1, a2, a3, a4, a5, a6, a7, a8, a9, a10, a11, a12, a13, a14] => rfl
  | a0 :: a1 :: a2 :: a3 :: a4 :: a5 :: a6 :: a7 :: a8 :: a9 :: a10 :: a11 :: a12 ::
      a13 :: a14 :: a15 :: rest =>
    simp only [List.length_cons] at h
    omega

theorem length_ge_16_decomp (l : List Nat) (h : ¬ l.length < 16) :
    ∃ d0 d1 d2 d3 d4 d5 d6 d7 d8 d9 d10 d11 d12 d13 d14 d15 rest,
      l = d0 :: d1 :: d2 :: d3 :: d4 :: d5 :: d6 :: d7 :: d8 :: d9 :: d10 :: d11 :: d12 ::
        d13 :: d14 :: d15 :: rest := by
  match l with
  | [] => simp at h
  | [a0] => simp at h
  | [a0, a1] => simp only [List.length_cons, List.length_nil] at h; omega
  | [a0, a1, a2] => simp only [List.length_cons, List.length_nil] at h; omega
  | [a0, a1, a2, a3] => simp only [List.length_cons, List.length_nil] at h; omega
  | [a0, a1, a2, a3, a4] => simp only [List.length_cons, List.length_nil] at h; omega
  | [a0, a1, a2, a3, a4, a5] => simp only [List.length_cons, List.length_nil] at h; omega
  | [a0, a1, a2, a3, a4, a5, a6] => simp only [List.length_cons, List.length_nil] at h; omega
  | [a0, a1, a2, a3, a4, a5, a6, a7] =>
    simp only [List.length_cons, List.length_nil] at h; omega
  | [a0, a1, a2, a3, a4, a5, a6, a7, a8] =>
    simp only [List.length_cons, List.length_nil] at h; omega
  | [a0, a1, a2, a3, a4, a5, a6, a7, a8, a9] =>
    simp only [List.length_cons, List.length_nil] at h; omega
  | [a0, a1, a2, a3, a4, a5, a6, a7, a8, a9, a10] =>
    simp only [List.length_cons, List.length_nil] at h; omega
  | [a0, a1, a2, a3, a4, a5, a6, a7, a8, a9, a10, a11] =>
    simp only [List.length_cons, List.length_nil] at h; omega
  | [a0, a1, a2, a3, a4, a5, a6, a7, a8, a9, a10, a11, a12] =>
    simp only [List.length_cons, List.length_nil] at h; omega
  | [a0, a1, a2, a3, a4, a5, a6, a7, a8, a9, a10, a11, a12, a13] =>
    simp only [List.length_cons, List.length_nil] at h; omega
  | [a0, a1, a2, a3, a4, a5, a6, a7, a8, a9, a10, a11, a12, a13, a14] =>
    simp only [List.length_cons, List.length_nil] at h; omega
  | a0 :: a1 :: a2 :: a3 :: a4 :: a5 :: a6 :: a7 :: a8 :: a9 :: a10 :: a11 :: a12 ::
      a13 :: a14 :: a15 :: rest =>
    exact ⟨a0, a1, a2, a3, a4, a5, a6, a7, a8, a9, a10, a11, a12, a13, a14, a15, rest, rfl⟩

theorem hsLoop_spec :
    ∀ (n : Nat) (data : List Nat), data.length ≤ n → ∀ st : HSState,
      (∀ d ∈ data, d < 2 ^ 64) → hsBounded st → hsWeight st + pcSum data < 2 ^ 64 →
      hsBounded (hsLoop st data).1 ∧ (hsLoop st data).2.length = data.length % 16 ∧
        (∀ d ∈ (hsLoop st data).2, d < 2 ^ 64) ∧
        hsWeight (hsLoop st data).1 + pcSum (hsLoop st data).2 = hsWeight st + pcSum data := by
  intro n
  induction n with
  | zero =>
    intro data hlen st hd hb hw
    have hnil : data = [] := List.eq_nil_of_length_eq_zero (by omega)
    subst hnil
    rw [hsLoop_short st [] (by simp)]
    exact ⟨hb, by simp, by simp, rfl⟩
  | succ n ih =>
    intro data hlen st hd hb hw
    by_cases hshort : data.length < 16
    · rw [hsLoop_short st data hshort]
      exact ⟨hb, by show data.length = data.length % 16; omega, hd, rfl⟩
    · obtain ⟨d0, d1, d2, d3, d4, d5, d6, d7, d8, d9, d10, d11, d12, d13, d14, d15, rest,
          rfl⟩ := length_ge_16_decomp data hshort
      · have hsplit : pcSum (d0 :: d1 :: d2 :: d3 :: d4 :: d5 :: d6 :: d7 :: d8 :: d9 ::
            d10 :: d11 :: d12 :: d13 :: d14 :: d15 :: rest)
            = pcSum [d0, d1, d2, d3, d4, d5, d6, d7, d8, d9, d10, d11, d12, d13, d14, d15]
              + pcSum rest := by
          simp only [pcSum, List.map_cons, List.sum_cons, List.map_nil, List.sum_nil]
          omega
        obtain ⟨hb', hwstep⟩ := hsStep_spec hb
          (hd d0 (by simp)) (hd d1 (by simp)) (hd d2 (by simp)) (hd d3 (by simp))
          (hd d4 (by simp)) (hd d5 (by simp)) (hd d6 (by simp)) (hd d7 (by simp))
          (hd d8 (by simp)) (hd d9 (by simp)) (hd d10 (by simp)) (hd d11 (by simp))
          (hd d12 (by simp)) (hd d13 (by simp)) (hd d14 (by simp))
          (hd d15 (by simp)) (by omega)
        have hrest : ∀ d ∈ rest, d < 2 ^ 64 := by
          intro d hdr
          apply hd
          simp [List.mem_cons, hdr]
        have hlen' : rest.length ≤ n := by
          simp only [List.length_cons] at hlen
          omega
        have ihr := ih rest hlen'
          (hsStep st d0 d1 d2 d3 d4 d5 d6 d7 d8 d9 d10 d11 d12 d13 d14 d15)
          hrest hb' (by omega)
        have hunf : hsLoop st (d0 :: d1 :: d2 :: d3 :: d4 :: d5 :: d6 :: d7 :: d8 :: d9 ::
            d10 :: d11 :: d12 :: d13 :: d14 :: d15 :: rest)
            = hsLoop (hsStep st d0 d1 d2 d3 d4 d5 d6 d7 d8 d9 d10 d11 d12 d13 d14 d15)
              rest := rfl
        rw [hunf, hsplit]
        refine ⟨ihr.1, ?_, ihr.2.2.1, by omega⟩
        have h2 := ihr.2.1
        simp only [List.length_cons]
        omega

theorem foldl_popcnt64_mod (l : List Nat) :
    ∀ t : Nat, t < 2 ^ 64 →
      l.foldl (fun t d => (t + popcnt64 d) % 2 ^ 64) t
        = (t + (l.map popcnt64).sum) % 2 ^ 64 := by
  induction l with
  | nil =>
    intro t ht
    simp only [List.foldl_nil, List.map_nil, List.sum_nil, Nat.add_zero]
    omega
  | cons d rest ih =>
    intro t ht
    have h2 : (t + popcnt64 d) % 2 ^ 64 < 2 ^ 64 := Nat.mod_lt _ (by norm_num)
    simp only [List.foldl_cons, List.map_cons, List.sum_cons]
    rw [ih _ h2, Nat.mod_add_mod]
    omega

theorem map_popcnt64_eq_pcSum (l : List Nat) (hl : ∀ d ∈ l, d < 2 ^ 64) :
    (l.map popcnt64).sum = pcSum l := by
  unfold pcSum
  congr 1
  apply List.map_congr_left
  intro d hdm
  exact popcnt64_eq_popcount (hl d hdm)

/-- Correctness of the scalar Harley-Seal accumulator: on any word array whose
total bit count does not overflow 64 bits it returns the exact total
population count. -/
theorem popcnt_harley_seal_eq (data : List Nat) (hd : ∀ d ∈ data, d < 2 ^ 64)
    (hs : pcSum data < 2 ^ 64) : popcnt_harley_seal data = pcSum data := by
  by_cases hnil : data.length = 0
  · have : data = [] := List.eq_nil_of_length_eq_zero hnil
    subst this
    simp [popcnt_harley_seal, pcSum]
  · obtain ⟨hbf, hlenr, hdr, hwr⟩ :=
      hsLoop_spec data.length data le_rfl ⟨0, 0, 0, 0, 0, 0⟩ hd
        (by refine ⟨?_, ?_, ?_, ?_⟩ <;> norm_num)
        (by simpa [hsWeight] using hs)
    obtain ⟨hO, hT, hF, hE⟩ := hbf
    have hwr' : LibPopcnt.popcount (hsLoop ⟨0, 0, 0, 0, 0, 0⟩ data).1.ones
        + 2 * LibPopcnt.popcount (hsLoop ⟨0, 0, 0, 0, 0, 0⟩ data).1.twos
        + 4 * LibPopcnt.popcount (hsLoop ⟨0, 0, 0, 0, 0, 0⟩ data).1.fours
        + 8 * LibPopcnt.popcount (hsLoop ⟨0, 0, 0, 0, 0, 0⟩ data).1.eights
        + 16 * (hsLoop ⟨0, 0, 0, 0, 0, 0⟩ data).1.total
        + pcSum (hsLoop ⟨0, 0, 0, 0, 0, 0⟩ data).2 = pcSum data := by
      simp only [hsWeight, LibPopcnt.popcount_zero] at hwr
      omega
    simp only [popcnt_harley_seal, if_neg hnil]
    rw [popcnt64_eq_popcount hE, popcnt64_eq_popcount hF, popcnt64_eq_popcount hT,
      popcnt64_eq_popcount hO]
    rw [foldl_popcnt64_mod _ _ (Nat.mod_lt _ (by norm_num)),
      map_popcnt64_eq_pcSum _ hdr]
    omega

end PopcntH

/-- C4: for every sequence of 64-bit words, `popcnt_harley_seal` (which runs
whole 16-word blocks through the CSA cascade, combines the registers as
`total = Σ registers[i] · 2^i` with each register counted by the word counter,
and counts remainder words by direct per-word calls) returns the same total as
summing the word counter `popcnt64` over each word individually.  The side
condition rules out 64-bit wrap-around of the total, which is unreachable for
any physical array. -/
theorem C4_harley_seal_eq_popcnt64_sum (data : List Nat)
    (hd : ∀ d ∈ data, d < 2 ^ 64)
    (hs : (data.map PopcntH.popcnt64).sum < 2 ^ 64) :
    PopcntH.popcnt_harley_seal data = (data.map PopcntH.popcnt64).sum := by
  rw [PopcntH.map_popcnt64_eq_pcSum data hd] at hs ⊢
  exact PopcntH.popcnt_harley_seal_eq data hd hs

/-- A concrete 18-word input (one full 16-word block plus two remainder
words) for the C4 witness. -/
def c4data : List Nat :=
  [3, 5, 7, 9, 11, 13, 17, 0xFF, 0xFFFF, 1, 2, 4, 8, 16, 32, 64, 12345,
    0xFFFFFFFFFFFFFFFF]

/-- Witness for C4 at a concrete 18-word array. -/
theorem C4_harley_seal_eq_popcnt64_sum_witness :
    (∀ d ∈ c4data, d < 2 ^ 64) ∧ (c4data.map PopcntH.popcnt64).sum < 2 ^ 64 ∧
      PopcntH.popcnt_harley_seal c4data = (c4data.map PopcntH.popcnt64).sum :=
  ⟨by decide, by decide,
    C4_harley_seal_eq_popcnt64_sum c4data (by decide) (by decide)⟩

namespace LibPopcnt

/-! ### 256-bit vectors (src/libpopcnt.h lines 362-467)

A `__m256i` value is a natural number `< 2 ^ 256`; its byte lanes, 16-bit
lanes and 64-bit lanes are the base-256, base-2^16 and base-2^64 digits.
The AVX2 intrinsics are modelled by their architectural semantics on those
lanes. -/

/-- Byte lane `j` of a vector. -/
def vByte (v j : Nat) : Nat := v / 2 ^ (8 * j) % 256

/-- 16-bit lane `l` of a vector. -/
def vLane16 (v l : Nat) : Nat := v / 2 ^ (16 * l) % 2 ^ 16

/-- 64-bit lane `l` of a vector. -/
def vLane64 (v l : Nat) : Nat := v / 2 ^ (64 * l) % 2 ^ 64

/-- Packs a list of 16-bit lanes, least significant first. -/
def lanesVal16 : List Nat → Nat
  | [] => 0
  | w :: ws => w % 2 ^ 16 + 2 ^ 16 * lanesVal16 ws

/-- Packs a list of 64-bit lanes, least significant first. -/
def lanesVal64 : List Nat → Nat
  | [] => 0
  | w :: ws => w % 2 ^ 64 + 2 ^ 64 * lanesVal64 ws

/-- `_mm256_set1_epi8`. -/
def set1_epi8 (c : Nat) : Nat := bytesVal (List.replicate 32 (c % 256))

/-- `_mm256_setr_epi8`: bytes listed from lane 0 upward. -/
def setr_epi8 (bs : List Nat) : Nat := bytesVal (bs.map (· % 256))

/-- `_mm256_srli_epi16`: logical right shift within each 16-bit lane. -/
def srli_epi16 (v n : Nat) : Nat := lanesVal16 ((List.range 16).map fun l => vLane16 v l >>> n)

/-- `_mm256_slli_epi64`: logical left shift within each 64-bit lane. -/
def slli_epi64 (v n : Nat) : Nat := lanesVal64 ((List.range 4).map fun l => vLane64 v l <<< n)

/-- `_mm256_add_epi64`: lane-wise 64-bit addition. -/
def add_epi64 (a b : Nat) : Nat :=
  lanesVal64 ((List.range 4).map fun l => vLane64 a l + vLane64 b l)

/-- `_mm256_shuffle_epi8`: byte `j` of the result selects byte
`v[j] mod 16` of table `t` within the same 128-bit half, or 0 when the top
bit of `v[j]` is set. -/
def shuffle_epi8 (t v : Nat) : Nat :=
  bytesVal ((List.range 32).map fun j =>
    if 128 ≤ vByte v j then 0 else vByte t (16 * (j / 16) + vByte v j % 16))

/-- `_mm256_sad_epu8`: each 64-bit lane receives the sum of the absolute
byte differences of the corresponding eight byte pairs. -/
def sad_epu8 (a b : Nat) : Nat :=
  lanesVal64 ((List.range 4).map fun l =>
    ((List.range 8).map fun j =>
      max (vByte a (8 * l + j)) (vByte b (8 * l + j))
        - min (vByte a (8 * l + j)) (vByte b (8 * l + j))).sum)

/-- Embedding of `CSA256` (src/libpopcnt.h lines 370-375); the bitwise
operations of `Nat` act lane-obliviously, exactly like the vector ops. -/
def CSA256 (a b c : Nat) : Nat × Nat :=
  let u := a ^^^ b
  ((a &&& b) ||| (u &&& c), u ^^^ c)

theorem CSA256_eq_CSA (a b c : Nat) : CSA256 a b c = PopcntH.CSA a b c := rfl

/-- The first lookup table of `popcnt256`. -/
def lookup1 : Nat :=
  setr_epi8 [4, 5, 5, 6, 5, 6, 6, 7, 5, 6, 6, 7, 6, 7, 7, 8,
             4, 5, 5, 6, 5, 6, 6, 7, 5, 6, 6, 7, 6, 7, 7, 8]

/-- The second lookup table of `popcnt256`. -/
def lookup2 : Nat :=
  setr_epi8 [4, 3, 3, 2, 3, 2, 2, 1, 3, 2, 2, 1, 2, 1, 1, 0,
             4, 3, 3, 2, 3, 2, 2, 1, 3, 2, 2, 1, 2, 1, 1, 0]

/-- Embedding of `popcnt256` (src/libpopcnt.h lines 380-403): the
nibble-lookup-shuffle followed by `_mm256_sad_epu8`. -/
def popcnt256 (v : Nat) : Nat :=
  let low_mask := set1_epi8 0x0f
  let lo := v &&& low_mask
  let hi := srli_epi16 v 4 &&& low_mask
  let popcnt1 := shuffle_epi8 lookup1 lo
  let popcnt2 := shuffle_epi8 lookup2 hi
  sad_epu8 popcnt1 popcnt2

/-- The mutable vector locals of `popcnt_avx2` (src/libpopcnt.h lines
417-423). -/
structure Avx2State where
  cnt : Nat
  ones : Nat
  twos : Nat
  fours : Nat
  eights : Nat
  sixteens : Nat

/-- The fifteen `CSA256` calls of one iteration of the `popcnt_avx2` main
loop (src/libpopcnt.h lines 431-445), in source order; the naming scheme
matches `PopcntH.hsCascade`. -/
def avx2Cascade (st : Avx2State)
    (d0 d1 d2 d3 d4 d5 d6 d7 d8 d9 d10 d11 d12 d13 d14 d15 : Nat) : Avx2State :=
  let p1 := CSA256 st.ones d0 d1
  let p2 := CSA256 p1.2 d2 d3
  let q1 := CSA256 st.twos p1.1 p2.1
  let p3 := CSA256 p2.2 d4 d5
  let p4 := CSA256 p3.2 d6 d7
  let q2 := CSA256 q1.2 p3.1 p4.1
  let r1 := CSA256 st.fours q1.1 q2.1
  let p5 := CSA256 p4.2 d8 d9
  let p6 := CSA256 p5.2 d10 d11
  let q3 := CSA256 q2.2 p5.1 p6.1
  let p7 := CSA256 p6.2 d12 d13
  let p8 := CSA256 p7.2 d14 d15
  let q4 := CSA256 q3.2 p7.1 p8.1
  let r2 := CSA256 r1.2 q3.1 q4.1
  let s1 := CSA256 st.eights r1.1 r2.1
  { cnt := st.cnt, ones := p8.2, twos := q4.2, fours := r2.2,
    eights := s1.2, sixteens := s1.1 }

/-- One full iteration of the `popcnt_avx2` main loop: the cascade followed
by `cnt = _mm256_add_epi64(cnt, popcnt256(sixteens))`. -/
def avx2Step (st : Avx2State)
    (d0 d1 d2 d3 d4 d5 d6 d7 d8 d9 d10 d11 d12 d13 d14 d15 : Nat) : Avx2State :=
  let st' := avx2Cascade st d0 d1 d2 d3 d4 d5 d6 d7 d8 d9 d10 d11 d12 d13 d14 d15
  { st' with cnt := add_epi64 st'.cnt (popcnt256 st'.sixteens) }

/-- The main loop of `popcnt_avx2`: the loop bound `limit = size - size % 16`
means the body runs exactly while at least 16 vectors remain. -/
def avx2Loop : Avx2State → List Nat → Avx2State × List Nat
  | st, d0 :: d1 :: d2 :: d3 :: d4 :: d5 :: d6 :: d7 ::
      d8 :: d9 :: d10 :: d11 :: d12 :: d13 :: d14 :: d15 :: rest =>
    avx2Loop (avx2Step st d0 d1 d2 d3 d4 d5 d6 d7 d8 d9 d10 d11 d12 d13 d14 d15) rest
  | st, rest => (st, rest)

/-- Embedding of `popcnt_avx2` (src/libpopcnt.h lines 415-465) on the list of
loaded 256-bit vectors; the final line sums the four 64-bit lanes of `cnt`
with 64-bit additions. -/
def popcnt_avx2 (vectors : List Nat) : Nat :=
  let sr := avx2Loop ⟨0, 0, 0, 0, 0, 0⟩ vectors
  let cnt := slli_epi64 sr.1.cnt 4
  let cnt := add_epi64 cnt (slli_epi64 (popcnt256 sr.1.eights) 3)
  let cnt := add_epi64 cnt (slli_epi64 (popcnt256 sr.1.fours) 2)
  let cnt := add_epi64 cnt (slli_epi64 (popcnt256 sr.1.twos) 1)
  let cnt := add_epi64 cnt (popcnt256 sr.1.ones)
  let cnt := sr.2.foldl (fun c v => add_epi64 c (popcnt256 v)) cnt
  (((vLane64 cnt 0 + vLane64 cnt 1) % 2 ^ 64 + vLane64 cnt 2) % 2 ^ 64
    + vLane64 cnt 3) % 2 ^ 64

/-- Sum of the four 64-bit lanes of a vector, without wrap-around (used to
state invariants about the `cnt` accumulator). -/
def laneSum (v : Nat) : Nat := vLane64 v 0 + vLane64 v 1 + vLane64 v 2 + vLane64 v 3

/-! ### Lane-extraction lemmas for the vector model -/

theorem vByte_lt (v j : Nat) : vByte v j < 256 := Nat.mod_lt _ (by norm_num)

theorem vByte_bytesVal :
    ∀ bs : List Nat, (∀ b ∈ bs, b < 256) → ∀ j, vByte (bytesVal bs) j = bs.getD j 0 := by
  intro bs
  induction bs with
  | nil =>
    intro _ j
    simp [vByte, bytesVal, Nat.zero_div]
  | cons b rest ih =>
    intro h j
    have hb : b < 256 := h b (by simp)
    match j with
    | 0 =>
      simp only [vByte, bytesVal_cons, pow_zero, Nat.mul_zero, Nat.div_one, List.getD_cons_zero]
      omega
    | j + 1 =>
      have hdiv : bytesVal (b :: rest) / 2 ^ (8 * (j + 1))
          = bytesVal rest / 2 ^ (8 * j) := by
        have hpow : (2 : Nat) ^ (8 * (j + 1)) = 256 * 2 ^ (8 * j) := by
          rw [show 8 * (j + 1) = 8 + 8 * j by ring, pow_add]
          norm_num
        rw [hpow, ← Nat.div_div_eq_div_mul]
        congr 1
        simp only [bytesVal_cons]
        omega
      simp only [vByte, hdiv, List.getD_cons_succ]
      exact ih (fun x hx => h x (by simp [hx])) j

theorem vLane64_lanesVal64 :
    ∀ ws : List Nat, ∀ l, vLane64 (lanesVal64 ws) l = ws.getD l 0 % 2 ^ 64 := by
  intro ws
  induction ws with
  | nil =>
    intro l
    simp [vLane64, lanesVal64, Nat.zero_div]
  | cons w rest ih =>
    intro l
    match l with
    | 0 =>
      simp only [vLane64, lanesVal64, pow_zero, Nat.mul_zero, Nat.div_one, List.getD_cons_zero]
      have : w % 2 ^ 64 < 2 ^ 64 := Nat.mod_lt _ (by norm_num)
      omega
    | l + 1 =>
      have hdiv : lanesVal64 (w :: rest) / 2 ^ (64 * (l + 1))
          = lanesVal64 rest / 2 ^ (64 * l) := by
        have hpow : (2 : Nat) ^ (64 * (l + 1)) = 2 ^ 64 * 2 ^ (64 * l) := by
          rw [show 64 * (l + 1) = 64 + 64 * l by ring, pow_add]
        rw [hpow, ← Nat.div_div_eq_div_mul]
        have hx : lanesVal64 (w :: rest) / 2 ^ 64 = lanesVal64 rest := by
          simp only [lanesVal64]
          omega
        rw [hx]
      simp only [vLane64, hdiv, List.getD_cons_succ]
      exact ih l

theorem vByte_lanesVal16_even :
    ∀ ws : List Nat, ∀ l, vByte (lanesVal16 ws) (2 * l) = ws.getD l 0 % 2 ^ 16 % 256 := by
  intro ws
  induction ws with
  | nil =>
    intro l
    simp [vByte, lanesVal16, Nat.zero_div]
  | cons w rest ih =>
    intro l
    match l with
    | 0 =>
      simp only [vByte, lanesVal16, Nat.mul_zero, pow_zero, Nat.div_one, List.getD_cons_zero]
      have : w % 2 ^ 16 < 2 ^ 16 := Nat.mod_lt _ (by norm_num)
      omega
    | l + 1 =>
      have hdiv : lanesVal16 (w :: rest) / 2 ^ (8 * (2 * (l + 1)))
          = lanesVal16 rest / 2 ^ (8 * (2 * l)) := by
        have hpow : (2 : Nat) ^ (8 * (2 * (l + 1))) = 2 ^ 16 * 2 ^ (8 * (2 * l)) := by
          rw [show 8 * (2 * (l + 1)) = 16 + 8 * (2 * l) by ring, pow_add]
        rw [hpow, ← Nat.div_div_eq_div_mul]
        have hx : lanesVal16 (w :: rest) / 2 ^ 16 = lanesVal16 rest := by
          simp only [lanesVal16]
          omega
        rw [hx]
      simp only [vByte, hdiv, List.getD_cons_succ]
      exact ih l

theorem vByte_lanesVal16_odd :
    ∀ ws : List Nat, ∀ l, vByte (lanesVal16 ws) (2 * l + 1) = ws.getD l 0 % 2 ^ 16 / 256 := by
  intro ws
  induction ws with
  | nil =>
    intro l
    simp [vByte, lanesVal16, Nat.zero_div]
  | cons w rest ih =>
    intro l
    match l with
    | 0 =>
      simp only [vByte, lanesVal16, List.getD_cons_zero]
      have h1 : 8 * (2 * 0 + 1) = 8 := by norm_num
      rw [h1]
      have : w % 2 ^ 16 < 2 ^ 16 := Nat.mod_lt _ (by norm_num)
      have h2 : (2 : Nat) ^ 8 = 256 := by norm_num
      rw [h2]
      omega
    | l + 1 =>
      have hdiv : lanesVal16 (w :: rest) / 2 ^ (8 * (2 * (l + 1) + 1))
          = lanesVal16 rest / 2 ^ (8 * (2 * l + 1)) := by
        have hpow : (2 : Nat) ^ (8 * (2 * (l + 1) + 1)) = 2 ^ 16 * 2 ^ (8 * (2 * l + 1)) := by
          rw [show 8 * (2 * (l + 1) + 1) = 16 + 8 * (2 * l + 1) by ring, pow_add]
        rw [hpow, ← Nat.div_div_eq_div_mul]
        have hx : lanesVal16 (w :: rest) / 2 ^ 16 = lanesVal16 rest := by
          simp only [lanesVal16]
          omega
        rw [hx]
      simp only [vByte, hdiv, List.getD_cons_succ]
      exact ih l

theorem rangeMap_getD (n : Nat) (f : Nat → Nat) (j : Nat) :
    ((List.range n).map f).getD j 0 = if j < n then f j else 0 := by
  by_cases hj : j < n
  · rw [List.getD_eq_getElem?_getD, List.getElem?_map, List.getElem?_range hj]
    simp [hj]
  · rw [List.getD_eq_getElem?_getD, List.getElem?_map]
    have : (List.range n)[j]? = none := by
      rw [List.getElem?_eq_none]
      simp only [List.length_range]
      omega
    simp [this, hj]

theorem land_div_pow (a b : Nat) : ∀ k, (a &&& b) / 2 ^ k = a / 2 ^ k &&& b / 2 ^ k := by
  intro k
  induction k generalizing a b with
  | zero => simp
  | succ k ih =>
    have hpow : (2 : Nat) ^ (k + 1) = 2 ^ k * 2 := by ring
    rw [hpow, ← Nat.div_div_eq_div_mul, ← Nat.div_div_eq_div_mul,
      ← Nat.div_div_eq_div_mul, ih, Nat.and_div_two]

theorem land_mod_pow (a b k : Nat) : (a &&& b) % 2 ^ k = a % 2 ^ k &&& b % 2 ^ k := by
  apply Nat.eq_of_testBit_eq
  intro i
  simp only [Nat.testBit_mod_two_pow, Nat.testBit_and]
  by_cases hik : i < k <;> simp [hik]

theorem vByte_land (a b j : Nat) : vByte (a &&& b) j = vByte a j &&& vByte b j := by
  have h256 : (256 : Nat) = 2 ^ 8 := by norm_num
  simp only [vByte, land_div_pow, h256, land_mod_pow]

theorem set1_epi8_byte (c j : Nat) :
    vByte (set1_epi8 c) j = if j < 32 then c % 256 else 0 := by
  rw [set1_epi8, vByte_bytesVal _ (by
    intro b hb
    rw [List.eq_of_mem_replicate hb]
    omega)]
  by_cases hj : j < 32
  · rw [List.getD_eq_getElem?_getD, List.getElem?_replicate, if_pos hj, if_pos hj]
    rfl
  · rw [List.getD_eq_getElem?_getD, List.getElem?_replicate, if_neg hj, if_neg hj]
    rfl

theorem land15_mod (y : Nat) : y &&& 15 = y % 16 := by
  have h := Nat.and_pow_two_sub_one_eq_mod y 4
  norm_num at h
  exact h

theorem vLane16_as_bytes (v l : Nat) :
    vLane16 v l = vByte v (2 * l) + 256 * vByte v (2 * l + 1) := by
  have h1 : 8 * (2 * l) = 16 * l := by ring
  have h2 : v / 2 ^ (8 * (2 * l + 1)) = v / 2 ^ (16 * l) / 256 := by
    rw [show 8 * (2 * l + 1) = 16 * l + 8 by ring, pow_add]
    norm_num [Nat.div_div_eq_div_mul]
  simp only [vLane16, vByte, h1, h2]
  omega

theorem vByte_srli4 (v j : Nat) (hj : j < 32) :
    vByte (srli_epi16 v 4) j &&& 15 = vByte v j / 16 := by
  have hm : j / 2 < 16 := by omega
  have hw : vLane16 v (j / 2) = vByte v (2 * (j / 2)) + 256 * vByte v (2 * (j / 2) + 1) :=
    vLane16_as_bytes v (j / 2)
  have hb0 : vByte v (2 * (j / 2)) < 256 := vByte_lt _ _
  have hb1 : vByte v (2 * (j / 2) + 1) < 256 := vByte_lt _ _
  have hsh : vLane16 v (j / 2) >>> 4 = vLane16 v (j / 2) / 16 := by
    norm_num [Nat.shiftRight_eq_div_pow]
  rcases Nat.mod_two_eq_zero_or_one j with hr | hr
  · have hj2 : j = 2 * (j / 2) := by omega
    rw [hj2, srli_epi16, vByte_lanesVal16_even, rangeMap_getD, if_pos hm, land15_mod, hsh, hw]
    omega
  · have hj2 : j = 2 * (j / 2) + 1 := by omega
    rw [hj2, srli_epi16, vByte_lanesVal16_odd, rangeMap_getD, if_pos hm, land15_mod, hsh, hw]
    omega

theorem shuffle_epi8_byte (t x j : Nat) (hj : j < 32) :
    vByte (shuffle_epi8 t x) j
      = if 128 ≤ vByte x j then 0 else vByte t (16 * (j / 16) + vByte x j % 16) := by
  have hmem : ∀ b ∈ (List.range 32).map fun i =>
      if 128 ≤ vByte x i then 0 else vByte t (16 * (i / 16) + vByte x i % 16), b < 256 := by
    intro b hb
    obtain ⟨i, _, rfl⟩ := List.mem_map.mp hb
    split
    · norm_num
    · exact vByte_lt _ _
  rw [shuffle_epi8, vByte_bytesVal _ hmem j, rangeMap_getD, if_pos hj]

theorem sum_range_map_le (c : Nat) (f : Nat → Nat) :
    ∀ n, (∀ j, j < n → f j ≤ c) → ((List.range n).map f).sum ≤ n * c := by
  intro n
  induction n with
  | zero => simp
  | succ n ih =>
    intro h
    rw [List.range_succ, List.map_append, List.sum_append]
    have h1 := ih (fun j hj => h j (by omega))
    have h2 := h n (by omega)
    simp only [List.map_cons, List.map_nil, List.sum_cons, List.sum_nil]
    have hc : (n + 1) * c = n * c + c := by ring
    omega

theorem sad_epu8_lane (a b l : Nat) (hl : l < 4) :
    vLane64 (sad_epu8 a b) l
      = ((List.range 8).map fun j =>
          max (vByte a (8 * l + j)) (vByte b (8 * l + j))
            - min (vByte a (8 * l + j)) (vByte b (8 * l + j))).sum := by
  have hle : ((List.range 8).map fun j =>
      max (vByte a (8 * l + j)) (vByte b (8 * l + j))
        - min (vByte a (8 * l + j)) (vByte b (8 * l + j))).sum ≤ 8 * 255 := by
    apply sum_range_map_le
    intro j _
    have := vByte_lt a (8 * l + j)
    have := vByte_lt b (8 * l + j)
    omega
  rw [sad_epu8, vLane64_lanesVal64, rangeMap_getD, if_pos hl, Nat.mod_eq_of_lt (by omega)]

set_option maxRecDepth 8192 in
theorem lutFact : ∀ b < 256, ∀ h < 2,
    max (vByte lookup1 (16 * h + b % 16)) (vByte lookup2 (16 * h + b / 16))
      - min (vByte lookup1 (16 * h + b % 16)) (vByte lookup2 (16 * h + b / 16))
      = popcount b := by
  decide

/-- Each 64-bit lane of `popcnt256 v` is the total population count of the
corresponding eight byte lanes of `v`. -/
theorem popcnt256_lane (v l : Nat) (hl : l < 4) :
    vLane64 (popcnt256 v) l
      = ((List.range 8).map fun j => popcount (vByte v (8 * l + j))).sum := by
  simp only [popcnt256]
  rw [sad_epu8_lane _ _ l hl]
  congr 1
  apply List.map_congr_left
  intro j hjr
  have hj8 : j < 8 := List.mem_range.mp hjr
  have hi : 8 * l + j < 32 := by omega
  have hlo : vByte (v &&& set1_epi8 0x0f) (8 * l + j) = vByte v (8 * l + j) % 16 := by
    rw [vByte_land, set1_epi8_byte, if_pos hi]
    norm_num [land15_mod]
  have hhi : vByte (srli_epi16 v 4 &&& set1_epi8 0x0f) (8 * l + j)
      = vByte v (8 * l + j) / 16 := by
    rw [vByte_land, set1_epi8_byte, if_pos hi]
    have h15 : (0x0f : Nat) % 256 = 15 := by norm_num
    rw [h15, vByte_srli4 v _ hi]
  have hb : vByte v (8 * l + j) < 256 := vByte_lt _ _
  have hdiv16 : (8 * l + j) / 16 < 2 := by omega
  rw [shuffle_epi8_byte _ _ _ hi, shuffle_epi8_byte _ _ _ hi, hlo, hhi]
  rw [if_neg (by omega), if_neg (by omega)]
  have hmm : vByte v (8 * l + j) % 16 % 16 = vByte v (8 * l + j) % 16 := by omega
  have hdm : vByte v (8 * l + j) / 16 % 16 = vByte v (8 * l + j) / 16 := by omega
  rw [hmm, hdm]
  exact lutFact (vByte v (8 * l + j)) hb ((8 * l + j) / 16) hdiv16

theorem map_sum_eq_range_getD :
    ∀ (bs : List Nat) (g : Nat → Nat),
      (bs.map g).sum = ((List.range bs.length).map fun i => g (bs.getD i 0)).sum := by
  intro bs
  induction bs with
  | nil => simp
  | cons b rest ih =>
    intro g
    rw [List.map_cons, List.sum_cons, List.length_cons, List.range_succ_eq_map,
      List.map_cons, List.sum_cons, List.map_map]
    have hcomp : ((fun i => g ((b :: rest).getD i 0)) ∘ Nat.succ)
        = fun i => g (rest.getD i 0) := by
      funext i
      simp [Function.comp, List.getD_cons_succ]
    rw [hcomp, ← ih g]
    simp

/-- Summing the four 64-bit lanes of `popcnt256 v` yields the exact
population count of the 256-bit vector `v`; each lane is at most 64. -/
theorem popcnt256_laneSum {v : Nat} (hv : v < 2 ^ 256) :
    laneSum (popcnt256 v) = popcount v ∧ ∀ l, l < 4 → vLane64 (popcnt256 v) l ≤ 64 := by
  have hlane : ∀ l, l < 4 → vLane64 (popcnt256 v) l
      = ((List.range 8).map fun j => popcount (vByte v (8 * l + j))).sum :=
    fun l hl => popcnt256_lane v l hl
  have hr8 : List.range 8 = [0, 1, 2, 3, 4, 5, 6, 7] := by rfl
  have hpcb : ∀ i : Nat, popcount (vByte v i) ≤ 8 := by
    intro i
    have := vByte_lt v i
    exact popcount_le_of_lt_two_pow (by norm_num; omega)
  constructor
  · -- the lane sums regroup into the 32-byte population count
    have hbytes : ∀ b ∈ toBytes 32 v, b < 256 := toBytes_mem_lt 32 v
    have hval : bytesVal (toBytes 32 v) = v := by
      rw [bytesVal_toBytes]
      have : (256 : Nat) ^ 32 = 2 ^ 256 := by norm_num
      omega
    have hpc : popcount v = ((toBytes 32 v).map popcount).sum := by
      rw [← hval, popcount_bytesVal _ hbytes, hval]
    have hgd : ∀ i, (toBytes 32 v).getD i 0 = if i < 32 then vByte v i else 0 := by
      intro i
      by_cases hi : i < 32
      · rw [← hval, vByte_bytesVal _ hbytes i, hval, if_pos hi]
      · rw [if_neg hi, List.getD_eq_default]
        simp only [toBytes_length]
        omega
    have hr32 : List.range 32 = [0, 1, 2, 3, 4, 5, 6, 7, 8, 9, 10, 11, 12, 13, 14, 15,
        16, 17, 18, 19, 20, 21, 22, 23, 24, 25, 26, 27, 28, 29, 30, 31] := by rfl
    have hRHS : popcount v = ((List.range 32).map fun i => popcount (vByte v i)).sum := by
      rw [hpc, map_sum_eq_range_getD]
      simp only [toBytes_length]
      refine congrArg List.sum (List.map_congr_left ?_)
      intro i hi
      rw [hgd, if_pos (List.mem_range.mp hi)]
    have h0 := hlane 0 (by norm_num)
    have h1 := hlane 1 (by norm_num)
    have h2 := hlane 2 (by norm_num)
    have h3 := hlane 3 (by norm_num)
    rw [hr8] at h0 h1 h2 h3
    simp only [List.map_cons, List.map_nil, List.sum_cons, List.sum_nil] at h0 h1 h2 h3
    norm_num at h0 h1 h2 h3
    rw [hr32] at hRHS
    simp only [List.map_cons, List.map_nil, List.sum_cons, List.sum_nil] at hRHS
    rw [laneSum, h0, h1, h2, h3, hRHS]
    omega
  · intro l hl
    rw [hlane l hl]
    have := sum_range_map_le 8 (fun j => popcount (vByte v (8 * l + j))) 8
      (fun j _ => hpcb (8 * l + j))
    omega

theorem add_epi64_lane (a b l : Nat) (hl : l < 4) :
    vLane64 (add_epi64 a b) l = (vLane64 a l + vLane64 b l) % 2 ^ 64 := by
  rw [add_epi64, vLane64_lanesVal64, rangeMap_getD, if_pos hl]

theorem laneSum_add {a b : Nat} (hbound : laneSum a + laneSum b < 2 ^ 64) :
    laneSum (add_epi64 a b) = laneSum a + laneSum b := by
  simp only [laneSum] at hbound ⊢
  rw [add_epi64_lane a b 0 (by norm_num), add_epi64_lane a b 1 (by norm_num),
    add_epi64_lane a b 2 (by norm_num), add_epi64_lane a b 3 (by norm_num)]
  omega

/-- Register bounds of the AVX2 state: all CSA registers are 256-bit
vectors. -/
def avx2Bounded (st : Avx2State) : Prop :=
  st.ones < 2 ^ 256 ∧ st.twos < 2 ^ 256 ∧ st.fours < 2 ^ 256 ∧ st.eights < 2 ^ 256

/-- The AVX2 loop invariant quantity: registers weighted by powers of two
plus the banked total in bit units (16 bits per unit of the lane sum of
`cnt`, since the epilogue shifts `cnt` left by 4). -/
def avx2Weight (st : Avx2State) : Nat :=
  popcount st.ones + 2 * popcount st.twos + 4 * popcount st.fours + 8 * popcount st.eights
    + 16 * laneSum st.cnt

theorem avx2Cascade_spec {st : Avx2State}
    {d0 d1 d2 d3 d4 d5 d6 d7 d8 d9 d10 d11 d12 d13 d14 d15 : Nat}
    (hb : avx2Bounded st)
    (h0 : d0 < 2 ^ 256) (h1 : d1 < 2 ^ 256) (h2 : d2 < 2 ^ 256) (h3 : d3 < 2 ^ 256)
    (h4 : d4 < 2 ^ 256) (h5 : d5 < 2 ^ 256) (h6 : d6 < 2 ^ 256) (h7 : d7 < 2 ^ 256)
    (h8 : d8 < 2 ^ 256) (h9 : d9 < 2 ^ 256) (h10 : d10 < 2 ^ 256) (h11 : d11 < 2 ^ 256)
    (h12 : d12 < 2 ^ 256) (h13 : d13 < 2 ^ 256) (h14 : d14 < 2 ^ 256)
    (h15 : d15 < 2 ^ 256) :
    (avx2Cascade st d0 d1 d2 d3 d4 d5 d6 d7 d8 d9 d10 d11 d12 d13 d14 d15).cnt = st.cnt ∧
    avx2Bounded (avx2Cascade st d0 d1 d2 d3 d4 d5 d6 d7 d8 d9 d10 d11 d12 d13 d14 d15) ∧
    (avx2Cascade st d0 d1 d2 d3 d4 d5 d6 d7 d8 d9 d10 d11 d12 d13 d14 d15).sixteens
      < 2 ^ 256 ∧
    popcount (avx2Cascade st d0 d1 d2 d3 d4 d5 d6 d7 d8 d9 d10 d11 d12 d13 d14 d15).ones
      + 2 * popcount (avx2Cascade st d0 d1 d2 d3 d4 d5 d6 d7 d8 d9 d10 d11 d12 d13 d14
        d15).twos
      + 4 * popcount (avx2Cascade st d0 d1 d2 d3 d4 d5 d6 d7 d8 d9 d10 d11 d12 d13 d14
        d15).fours
      + 8 * popcount (avx2Cascade st d0 d1 d2 d3 d4 d5 d6 d7 d8 d9 d10 d11 d12 d13 d14
        d15).eights
      + 16 * popcount (avx2Cascade st d0 d1 d2 d3 d4 d5 d6 d7 d8 d9 d10 d11 d12 d13 d14
        d15).sixteens
      = popcount st.ones + 2 * popcount st.twos + 4 * popcount st.fours
        + 8 * popcount st.eights
        + PopcntH.pcSum [d0, d1, d2, d3, d4, d5, d6, d7, d8, d9, d10, d11, d12, d13, d14,
          d15] := by
  obtain ⟨hOnes, hTwos, hFours, hEights⟩ := hb
  obtain ⟨hp1h, hp1l, ep1⟩ := PopcntH.CSA_spec hOnes h0 h1
  obtain ⟨hp2h, hp2l, ep2⟩ := PopcntH.CSA_spec hp1l h2 h3
  obtain ⟨hq1h, hq1l, eq1⟩ := PopcntH.CSA_spec hTwos hp1h hp2h
  obtain ⟨hp3h, hp3l, ep3⟩ := PopcntH.CSA_spec hp2l h4 h5
  obtain ⟨hp4h, hp4l, ep4⟩ := PopcntH.CSA_spec hp3l h6 h7
  obtain ⟨hq2h, hq2l, eq2⟩ := PopcntH.CSA_spec hq1l hp3h hp4h
  obtain ⟨hr1h, hr1l, er1⟩ := PopcntH.CSA_spec hFours hq1h hq2h
  obtain ⟨hp5h, hp5l, ep5⟩ := PopcntH.CSA_spec hp4l h8 h9
  obtain ⟨hp6h, hp6l, ep6⟩ := PopcntH.CSA_spec hp5l h10 h11
  obtain ⟨hq3h, hq3l, eq3⟩ := PopcntH.CSA_spec hq2l hp5h hp6h
  obtain ⟨hp7h, hp7l, ep7⟩ := PopcntH.CSA_spec hp6l h12 h13
  obtain ⟨hp8h, hp8l, ep8⟩ := PopcntH.CSA_spec hp7l h14 h15
  obtain ⟨hq4h, hq4l, eq4⟩ := PopcntH.CSA_spec hq3l hp7h hp8h
  obtain ⟨hr2h, hr2l, er2⟩ := PopcntH.CSA_spec hr1l hq3h hq4h
  obtain ⟨hs1h, hs1l, es1⟩ := PopcntH.CSA_spec hEights hr1h hr2h
  refine ⟨rfl, ?_⟩
  simp only [avx2Bounded, avx2Cascade, CSA256_eq_CSA, PopcntH.pcSum, List.map_cons,
    List.map_nil, List.sum_cons, List.sum_nil]
  refine ⟨⟨hp8l, hq4l, hr2l, hs1l⟩, hs1h, ?_⟩
  omega

theorem avx2Step_spec {st : Avx2State}
    {d0 d1 d2 d3 d4 d5 d6 d7 d8 d9 d10 d11 d12 d13 d14 d15 : Nat}
    (hb : avx2Bounded st)
    (h0 : d0 < 2 ^ 256) (h1 : d1 < 2 ^ 256) (h2 : d2 < 2 ^ 256) (h3 : d3 < 2 ^ 256)
    (h4 : d4 < 2 ^ 256) (h5 : d5 < 2 ^ 256) (h6 : d6 < 2 ^ 256) (h7 : d7 < 2 ^ 256)
    (h8 : d8 < 2 ^ 256) (h9 : d9 < 2 ^ 256) (h10 : d10 < 2 ^ 256) (h11 : d11 < 2 ^ 256)
    (h12 : d12 < 2 ^ 256) (h13 : d13 < 2 ^ 256) (h14 : d14 < 2 ^ 256) (h15 : d15 < 2 ^ 256)
    (hw : avx2Weight st + PopcntH.pcSum [d0, d1, d2, d3, d4, d5, d6, d7, d8, d9, d10, d11,
      d12, d13, d14, d15] < 2 ^ 64) :
    avx2Bounded (avx2Step st d0 d1 d2 d3 d4 d5 d6 d7 d8 d9 d10 d11 d12 d13 d14 d15) ∧
      avx2Weight (avx2Step st d0 d1 d2 d3 d4 d5 d6 d7 d8 d9 d10 d11 d12 d13 d14 d15)
        = avx2Weight st + PopcntH.pcSum [d0, d1, d2, d3, d4, d5, d6, d7, d8, d9, d10, d11,
          d12, d13, d14, d15] := by
  obtain ⟨hcnt, hb', hsix, heq⟩ := avx2Cascade_spec hb h0 h1 h2 h3 h4 h5 h6 h7 h8 h9 h10
    h11 h12 h13 h14 h15
  obtain ⟨hO', hT', hF', hE'⟩ := hb'
  obtain ⟨hls, _⟩ := popcnt256_laneSum hsix
  have hbound : laneSum st.cnt + laneSum (popcnt256 (avx2Cascade st d0 d1 d2 d3 d4 d5 d6
      d7 d8 d9 d10 d11 d12 d13 d14 d15).sixteens) < 2 ^ 64 := by
    rw [hls]
    have hw' := hw
    simp only [avx2Weight, PopcntH.pcSum, List.map_cons, List.map_nil, List.sum_cons,
      List.sum_nil] at hw' heq
    omega
  have hlsum : laneSum (add_epi64
      (avx2Cascade st d0 d1 d2 d3 d4 d5 d6 d7 d8 d9 d10 d11 d12 d13 d14 d15).cnt
      (popcnt256 (avx2Cascade st d0 d1 d2 d3 d4 d5 d6 d7 d8 d9 d10 d11 d12 d13 d14
        d15).sixteens))
      = laneSum st.cnt
        + popcount (avx2Cascade st d0 d1 d2 d3 d4 d5 d6 d7 d8 d9 d10 d11 d12 d13 d14
          d15).sixteens := by
    rw [hcnt, laneSum_add hbound, hls]
  simp only [avx2Bounded, avx2Weight, avx2Step, PopcntH.pcSum, List.map_cons, List.map_nil,
    List.sum_cons, List.sum_nil] at hw heq ⊢
  rw [hlsum]
  refine ⟨⟨hO', hT', hF', hE'⟩, ?_⟩
  omega

theorem avx2Loop_short (st : Avx2State) :
    ∀ data : List Nat, data.length < 16 → avx2Loop st data = (st, data) := by
  intro data h
  match data with
  | [] => rfl
  | [a0] => rfl
  | [a0, a1] => rfl
  | [a0, a1, a2] => rfl
  | [a0, a1, a2, a3] => rfl
  | [a0, a1, a2, a3, a4] => rfl
  | [a0, a1, a2, a3, a4, a5] => rfl
  | [a0, a1, a2, a3, a4, a5, a6] => rfl
  | [a0, a1, a2, a3, a4, a5, a6, a7] => rfl
  | [a0, a1, a2, a3, a4, a5, a6, a7, a8] => rfl
  | [a0, a1, a2, a3, a4, a5, a6, a7, a8, a9] => rfl
  | [a0, a1, a2, a3, a4, a5, a6, a7, a8, a9, a10] => rfl
  | [a0, a1, a2, a3, a4, a5, a6, a7, a8, a9, a10, a11] => rfl
  | [a0, a1, a2, a3, a4, a5, a6, a7, a8, a9, a10, a11, a12] => rfl
  | [a0, a1, a2, a3, a4, a5, a6, a7, a8, a9, a10, a11, a12, a13] => rfl
  | [a0, a1, a2, a3, a4, a5, a6, a7, a8, a9, a10, a11, a12, a13, a14] => rfl
  | a0 :: a1 :: a2 :: a3 :: a4 :: a5 :: a6 :: a7 :: a8 :: a9 :: a10 :: a11 :: a12 ::
      a13 :: a14 :: a15 :: rest =>
    simp only [List.length_cons] at h
    omega

theorem avx2Loop_spec :
    ∀ (n : Nat) (data : List Nat), data.length ≤ n → ∀ st : Avx2State,
      (∀ d ∈ data, d < 2 ^ 256) → avx2Bounded st →
      avx2Weight st + PopcntH.pcSum data < 2 ^ 64 →
      avx2Bounded (avx2Loop st data).1 ∧
        (avx2Loop st data).2.length = data.length % 16 ∧
        (∀ d ∈ (avx2Loop st data).2, d < 2 ^ 256) ∧
        avx2Weight (avx2Loop st data).1 + PopcntH.pcSum (avx2Loop st data).2
          = avx2Weight st + PopcntH.pcSum data := by
  intro n
  induction n with
  | zero =>
    intro data hlen st hd hb hw
    have hnil : data = [] := List.eq_nil_of_length_eq_zero (by omega)
    subst hnil
    rw [avx2Loop_short st [] (by simp)]
    exact ⟨hb, by simp, by simp, rfl⟩
  | succ n ih =>
    intro data hlen st hd hb hw
    by_cases hshort : data.length < 16
    · rw [avx2Loop_short st data hshort]
      exact ⟨hb, by show data.length = data.length % 16; omega, hd, rfl⟩
    · obtain ⟨d0, d1, d2, d3, d4, d5, d6, d7, d8, d9, d10, d11, d12, d13, d14, d15, rest,
          rfl⟩ := PopcntH.length_ge_16_decomp data hshort
      · have hsplit : PopcntH.pcSum (d0 :: d1 :: d2 :: d3 :: d4 :: d5 :: d6 :: d7 :: d8 ::
            d9 :: d10 :: d11 :: d12 :: d13 :: d14 :: d15 :: rest)
            = PopcntH.pcSum [d0, d1, d2, d3, d4, d5, d6, d7, d8, d9, d10, d11, d12, d13,
              d14, d15] + PopcntH.pcSum rest := by
          simp only [PopcntH.pcSum, List.map_cons, List.sum_cons, List.map_nil,
            List.sum_nil]
          omega
        obtain ⟨hb', hwstep⟩ := avx2Step_spec hb
          (hd d0 (by simp)) (hd d1 (by simp)) (hd d2 (by simp)) (hd d3 (by simp))
          (hd d4 (by simp)) (hd d5 (by simp)) (hd d6 (by simp)) (hd d7 (by simp))
          (hd d8 (by simp)) (hd d9 (by simp)) (hd d10 (by simp)) (hd d11 (by simp))
          (hd d12 (by simp)) (hd d13 (by simp)) (hd d14 (by simp))
          (hd d15 (by simp)) (by omega)
        have hrest : ∀ d ∈ rest, d < 2 ^ 256 := by
          intro d hdr
          apply hd
          simp [List.mem_cons, hdr]
        have hlen' : rest.length ≤ n := by
          simp only [List.length_cons] at hlen
          omega
        have ihr := ih rest hlen'
          (avx2Step st d0 d1 d2 d3 d4 d5 d6 d7 d8 d9 d10 d11 d12 d13 d14 d15)
          hrest hb' (by omega)
        have hunf : avx2Loop st (d0 :: d1 :: d2 :: d3 :: d4 :: d5 :: d6 :: d7 :: d8 ::
            d9 :: d10 :: d11 :: d12 :: d13 :: d14 :: d15 :: rest)
            = avx2Loop (avx2Step st d0 d1 d2 d3 d4 d5 d6 d7 d8 d9 d10 d11 d12 d13 d14 d15)
              rest := rfl
        rw [hunf, hsplit]
        refine ⟨ihr.1, ?_, ihr.2.2.1, by omega⟩
        have h2 := ihr.2.1
        simp only [List.length_cons]
        omega

end LibPopcnt

/-- The weighted register sum of one scalar Harley-Seal cascade output:
`popcount(ones)·1 + popcount(twos)·2 + popcount(fours)·4 + popcount(eights)·8 +
popcount(sixteens)·16`. -/
def hsCascadeWeight (st : PopcntH.HSState)
    (d0 d1 d2 d3 d4 d5 d6 d7 d8 d9 d10 d11 d12 d13 d14 d15 : Nat) : Nat :=
  LibPopcnt.popcount (PopcntH.hsCascade st d0 d1 d2 d3 d4 d5 d6 d7 d8 d9 d10 d11 d12 d13
      d14 d15).ones
    + 2 * LibPopcnt.popcount (PopcntH.hsCascade st d0 d1 d2 d3 d4 d5 d6 d7 d8 d9 d10 d11
      d12 d13 d14 d15).twos
    + 4 * LibPopcnt.popcount (PopcntH.hsCascade st d0 d1 d2 d3 d4 d5 d6 d7 d8 d9 d10 d11
      d12 d13 d14 d15).fours
    + 8 * LibPopcnt.popcount (PopcntH.hsCascade st d0 d1 d2 d3 d4 d5 d6 d7 d8 d9 d10 d11
      d12 d13 d14 d15).eights
    + 16 * LibPopcnt.popcount (PopcntH.hsCascade st d0 d1 d2 d3 d4 d5 d6 d7 d8 d9 d10 d11
      d12 d13 d14 d15).sixteens

/-- The weighted register sum of one AVX2 Harley-Seal cascade output. -/
def avx2CascadeWeight (st : LibPopcnt.Avx2State)
    (d0 d1 d2 d3 d4 d5 d6 d7 d8 d9 d10 d11 d12 d13 d14 d15 : Nat) : Nat :=
  LibPopcnt.popcount (LibPopcnt.avx2Cascade st d0 d1 d2 d3 d4 d5 d6 d7 d8 d9 d10 d11 d12
      d13 d14 d15).ones
    + 2 * LibPopcnt.popcount (LibPopcnt.avx2Cascade st d0 d1 d2 d3 d4 d5 d6 d7 d8 d9 d10
      d11 d12 d13 d14 d15).twos
    + 4 * LibPopcnt.popcount (LibPopcnt.avx2Cascade st d0 d1 d2 d3 d4 d5 d6 d7 d8 d9 d10
      d11 d12 d13 d14 d15).fours
    + 8 * LibPopcnt.popcount (LibPopcnt.avx2Cascade st d0 d1 d2 d3 d4 d5 d6 d7 d8 d9 d10
      d11 d12 d13 d14 d15).eights
    + 16 * LibPopcnt.popcount (LibPopcnt.avx2Cascade st d0 d1 d2 d3 d4 d5 d6 d7 d8 d9 d10
      d11 d12 d13 d14 d15).sixteens

/-- C5: in every iteration of the Harley-Seal main loop (scalar
`popcnt_harley_seal` and the AVX2 `popcnt_avx2`), after the CSA cascade of a
block — the point at which all five registers `ones/twos/fours/eights/sixteens`
are live — the weighted register sum `popcount(ones)·1 + popcount(twos)·2 +
popcount(fours)·4 + popcount(eights)·8 + popcount(sixteens)·16` plus the
running total accumulated so far equals the exact cumulative population count
of the words processed so far.  The running total is measured in bits: the C
variable `total` holds 16-bit units (the epilogue multiplies it by 16), so the
banked bit count is `16 · total`; likewise `16 · laneSum cnt` for the AVX2
version.  `pre` is the input consumed by the previous iterations and
`d0..d15` the current block. -/
theorem C5_csa_invariant :
    (∀ (pre : List Nat) (d0 d1 d2 d3 d4 d5 d6 d7 d8 d9 d10 d11 d12 d13 d14 d15 : Nat),
      pre.length % 16 = 0 → (∀ d ∈ pre, d < 2 ^ 64) →
      d0 < 2 ^ 64 → d1 < 2 ^ 64 → d2 < 2 ^ 64 → d3 < 2 ^ 64 →
      d4 < 2 ^ 64 → d5 < 2 ^ 64 → d6 < 2 ^ 64 → d7 < 2 ^ 64 →
      d8 < 2 ^ 64 → d9 < 2 ^ 64 → d10 < 2 ^ 64 → d11 < 2 ^ 64 →
      d12 < 2 ^ 64 → d13 < 2 ^ 64 → d14 < 2 ^ 64 → d15 < 2 ^ 64 →
      PopcntH.pcSum pre + PopcntH.pcSum [d0, d1, d2, d3, d4, d5, d6, d7, d8, d9, d10, d11,
        d12, d13, d14, d15] < 2 ^ 64 →
      hsCascadeWeight (PopcntH.hsLoop ⟨0, 0, 0, 0, 0, 0⟩ pre).1 d0 d1 d2 d3 d4 d5 d6 d7 d8
          d9 d10 d11 d12 d13 d14 d15
        + 16 * (PopcntH.hsLoop ⟨0, 0, 0, 0, 0, 0⟩ pre).1.total
        = PopcntH.pcSum pre + PopcntH.pcSum [d0, d1, d2, d3, d4, d5, d6, d7, d8, d9, d10,
          d11, d12, d13, d14, d15]) ∧
    (∀ (pre : List Nat) (d0 d1 d2 d3 d4 d5 d6 d7 d8 d9 d10 d11 d12 d13 d14 d15 : Nat),
      pre.length % 16 = 0 → (∀ d ∈ pre, d < 2 ^ 256) →
      d0 < 2 ^ 256 → d1 < 2 ^ 256 → d2 < 2 ^ 256 → d3 < 2 ^ 256 →
      d4 < 2 ^ 256 → d5 < 2 ^ 256 → d6 < 2 ^ 256 → d7 < 2 ^ 256 →
      d8 < 2 ^ 256 → d9 < 2 ^ 256 → d10 < 2 ^ 256 → d11 < 2 ^ 256 →
      d12 < 2 ^ 256 → d13 < 2 ^ 256 → d14 < 2 ^ 256 → d15 < 2 ^ 256 →
      PopcntH.pcSum pre + PopcntH.pcSum [d0, d1, d2, d3, d4, d5, d6, d7, d8, d9, d10, d11,
        d12, d13, d14, d15] < 2 ^ 64 →
      avx2CascadeWeight (LibPopcnt.avx2Loop ⟨0, 0, 0, 0, 0, 0⟩ pre).1 d0 d1 d2 d3 d4 d5 d6
          d7 d8 d9 d10 d11 d12 d13 d14 d15
        + 16 * LibPopcnt.laneSum (LibPopcnt.avx2Loop ⟨0, 0, 0, 0, 0, 0⟩ pre).1.cnt
        = PopcntH.pcSum pre + PopcntH.pcSum [d0, d1, d2, d3, d4, d5, d6, d7, d8, d9, d10,
          d11, d12, d13, d14, d15]) := by
  constructor
  · intro pre d0 d1 d2 d3 d4 d5 d6 d7 d8 d9 d10 d11 d12 d13 d14 d15 hpre hmem
      h0 h1 h2 h3 h4 h5 h6 h7 h8 h9 h10 h11 h12 h13 h14 h15 hbound
    obtain ⟨hb, hlen0, _, hw⟩ :=
      PopcntH.hsLoop_spec pre.length pre le_rfl ⟨0, 0, 0, 0, 0, 0⟩ hmem
        (by refine ⟨?_, ?_, ?_, ?_⟩ <;> norm_num)
        (by simp only [PopcntH.hsWeight, LibPopcnt.popcount_zero]; omega)
    have hrest : (PopcntH.hsLoop ⟨0, 0, 0, 0, 0, 0⟩ pre).2 = [] :=
      List.eq_nil_of_length_eq_zero (by omega)
    rw [hrest] at hw
    have hwst : PopcntH.hsWeight (PopcntH.hsLoop ⟨0, 0, 0, 0, 0, 0⟩ pre).1
        = PopcntH.pcSum pre := by
      simp only [PopcntH.hsWeight, LibPopcnt.popcount_zero, PopcntH.pcSum, List.map_nil,
        List.sum_nil] at hw ⊢
      omega
    obtain ⟨htot, hb', hsix, heq⟩ := PopcntH.hsCascade_spec hb h0 h1 h2 h3 h4 h5 h6 h7 h8
      h9 h10 h11 h12 h13 h14 h15
    simp only [PopcntH.hsWeight] at hwst
    simp only [hsCascadeWeight]
    omega
  · intro pre d0 d1 d2 d3 d4 d5 d6 d7 d8 d9 d10 d11 d12 d13 d14 d15 hpre hmem
      h0 h1 h2 h3 h4 h5 h6 h7 h8 h9 h10 h11 h12 h13 h14 h15 hbound
    obtain ⟨hb, hlen0, _, hw⟩ :=
      LibPopcnt.avx2Loop_spec pre.length pre le_rfl ⟨0, 0, 0, 0, 0, 0⟩ hmem
        (by refine ⟨?_, ?_, ?_, ?_⟩ <;> norm_num)
        (by
          simp only [LibPopcnt.avx2Weight, LibPopcnt.popcount_zero, LibPopcnt.laneSum,
            LibPopcnt.vLane64, Nat.zero_div, Nat.zero_mod]
          omega)
    have hrest : (LibPopcnt.avx2Loop ⟨0, 0, 0, 0, 0, 0⟩ pre).2 = [] :=
      List.eq_nil_of_length_eq_zero (by omega)
    rw [hrest] at hw
    have hwst : LibPopcnt.avx2Weight (LibPopcnt.avx2Loop ⟨0, 0, 0, 0, 0, 0⟩ pre).1
        = PopcntH.pcSum pre := by
      simp only [LibPopcnt.avx2Weight, LibPopcnt.popcount_zero, PopcntH.pcSum,
        List.map_nil, List.sum_nil, LibPopcnt.laneSum, LibPopcnt.vLane64, Nat.zero_div,
        Nat.zero_mod] at hw ⊢
      omega
    obtain ⟨hcnt, hb', hsix, heq⟩ := LibPopcnt.avx2Cascade_spec hb h0 h1 h2 h3 h4 h5 h6 h7
      h8 h9 h10 h11 h12 h13 h14 h15
    simp only [LibPopcnt.avx2Weight] at hwst
    simp only [avx2CascadeWeight]
    omega

/-- Witness for C5: both invariant instances at the first loop iteration on a
concrete all-ones block. -/
theorem C5_csa_invariant_witness :
    (hsCascadeWeight (PopcntH.hsLoop ⟨0, 0, 0, 0, 0, 0⟩ []).1 0xFFFFFFFFFFFFFFFF
        0xFFFFFFFFFFFFFFFF 0xFFFFFFFFFFFFFFFF 0xFFFFFFFFFFFFFFFF 0xFFFFFFFFFFFFFFFF
        0xFFFFFFFFFFFFFFFF 0xFFFFFFFFFFFFFFFF 0xFFFFFFFFFFFFFFFF 0xFFFFFFFFFFFFFFFF
        0xFFFFFFFFFFFFFFFF 0xFFFFFFFFFFFFFFFF 0xFFFFFFFFFFFFFFFF 0xFFFFFFFFFFFFFFFF
        0xFFFFFFFFFFFFFFFF 0xFFFFFFFFFFFFFFFF 0xFFFFFFFFFFFFFFFF
      + 16 * (PopcntH.hsLoop ⟨0, 0, 0, 0, 0, 0⟩ []).1.total
      = PopcntH.pcSum [] + PopcntH.pcSum [0xFFFFFFFFFFFFFFFF, 0xFFFFFFFFFFFFFFFF,
        0xFFFFFFFFFFFFFFFF, 0xFFFFFFFFFFFFFFFF, 0xFFFFFFFFFFFFFFFF, 0xFFFFFFFFFFFFFFFF,
        0xFFFFFFFFFFFFFFFF, 0xFFFFFFFFFFFFFFFF, 0xFFFFFFFFFFFFFFFF, 0xFFFFFFFFFFFFFFFF,
        0xFFFFFFFFFFFFFFFF, 0xFFFFFFFFFFFFFFFF, 0xFFFFFFFFFFFFFFFF, 0xFFFFFFFFFFFFFFFF,
        0xFFFFFFFFFFFFFFFF, 0xFFFFFFFFFFFFFFFF]) ∧
    (avx2CascadeWeight (LibPopcnt.avx2Loop ⟨0, 0, 0, 0, 0, 0⟩ []).1 1 2 3 4 5 6 7 8 9 10
        11 12 13 14 15 16
      + 16 * LibPopcnt.laneSum (LibPopcnt.avx2Loop ⟨0, 0, 0, 0, 0, 0⟩ []).1.cnt
      = PopcntH.pcSum [] + PopcntH.pcSum [1, 2, 3, 4, 5, 6, 7, 8, 9, 10, 11, 12, 13, 14,
        15, 16]) :=
  ⟨C5_csa_invariant.1 [] 0xFFFFFFFFFFFFFFFF 0xFFFFFFFFFFFFFFFF 0xFFFFFFFFFFFFFFFF
      0xFFFFFFFFFFFFFFFF 0xFFFFFFFFFFFFFFFF 0xFFFFFFFFFFFFFFFF 0xFFFFFFFFFFFFFFFF
      0xFFFFFFFFFFFFFFFF 0xFFFFFFFFFFFFFFFF 0xFFFFFFFFFFFFFFFF 0xFFFFFFFFFFFFFFFF
      0xFFFFFFFFFFFFFFFF 0xFFFFFFFFFFFFFFFF 0xFFFFFFFFFFFFFFFF 0xFFFFFFFFFFFFFFFF
      0xFFFFFFFFFFFFFFFF (by decide) (by simp) (by decide) (by decide) (by decide)
      (by decide) (by decide) (by decide) (by decide) (by decide) (by decide) (by decide)
      (by decide) (by decide) (by decide) (by decide) (by decide) (by decide) (by decide),
    C5_csa_invariant.2 [] 1 2 3 4 5 6 7 8 9 10 11 12 13 14 15 16 (by decide) (by simp)
      (by decide) (by decide) (by decide) (by decide) (by decide) (by decide) (by decide)
      (by decide) (by decide) (by decide) (by decide) (by decide) (by decide) (by decide)
      (by decide) (by decide) (by decide)⟩

namespace LibPopcnt

/-- `_mm256_sub_epi8`: lane-wise byte subtraction (mod 256). -/
def sub_epi8 (a b : Nat) : Nat :=
  bytesVal ((List.range 32).map fun j => (vByte a j + 256 - vByte b j) % 256)

/-- `_mm256_add_epi8`: lane-wise byte addition (mod 256). -/
def add_epi8 (a b : Nat) : Nat :=
  bytesVal ((List.range 32).map fun j => (vByte a j + vByte b j) % 256)

end LibPopcnt

namespace PopcntH

/-- `popcnt64` of src/popcnt.h in its hardware branches (`_mm_popcnt_u64`,
`__builtin_popcountll`): modelled by the instruction semantics, the exact
population count of the operand. -/
def hwPopcnt64 (x : Nat) : Nat := LibPopcnt.popcount x

/-- Embedding of `popcnt_m256i` (src/popcnt.h lines 165-176): the byte-wise
SWAR popcount followed by `_mm256_sad_epu8` against zero. -/
def popcnt_m256i (v : Nat) : Nat :=
  let m1 := LibPopcnt.set1_epi8 0x55
  let m2 := LibPopcnt.set1_epi8 0x33
  let m4 := LibPopcnt.set1_epi8 0x0F
  let s1 := LibPopcnt.sub_epi8 v (LibPopcnt.srli_epi16 v 1 &&& m1)
  let s2 := LibPopcnt.add_epi8 (s1 &&& m2) (LibPopcnt.srli_epi16 s1 2 &&& m2)
  let s3 := LibPopcnt.add_epi8 s2 (LibPopcnt.srli_epi16 s2 4) &&& m4
  LibPopcnt.sad_epu8 s3 0

/-- Embedding of `CSA_m256i` (src/popcnt.h lines 178-183). -/
def CSA_m256i (a b c : Nat) : Nat × Nat :=
  let u := a ^^^ b
  ((a &&& b) ||| (u &&& c), u ^^^ c)

/-- The mutable vector locals of `popcnt_harley_seal_avx2` (src/popcnt.h
lines 190-196). -/
structure HsAvxState where
  total : Nat
  ones : Nat
  twos : Nat
  fours : Nat
  eights : Nat
  sixteens : Nat

/-- The fifteen `CSA_m256i` calls of one `popcnt_harley_seal_avx2` iteration
(src/popcnt.h lines 203-217), in source order. -/
def hs256Cascade (st : HsAvxState)
    (d0 d1 d2 d3 d4 d5 d6 d7 d8 d9 d10 d11 d12 d13 d14 d15 : Nat) : HsAvxState :=
  let p1 := CSA_m256i st.ones d0 d1
  let p2 := CSA_m256i p1.2 d2 d3
  let q1 := CSA_m256i st.twos p1.1 p2.1
  let p3 := CSA_m256i p2.2 d4 d5
  let p4 := CSA_m256i p3.2 d6 d7
  let q2 := CSA_m256i q1.2 p3.1 p4.1
  let r1 := CSA_m256i st.fours q1.1 q2.1
  let p5 := CSA_m256i p4.2 d8 d9
  let p6 := CSA_m256i p5.2 d10 d11
  let q3 := CSA_m256i q2.2 p5.1 p6.1
  let p7 := CSA_m256i p6.2 d12 d13
  let p8 := CSA_m256i p7.2 d14 d15
  let q4 := CSA_m256i q3.2 p7.1 p8.1
  let r2 := CSA_m256i r1.2 q3.1 q4.1
  let s1 := CSA_m256i st.eights r1.1 r2.1
  { total := st.total, ones := p8.2, twos := q4.2, fours := r2.2,
    eights := s1.2, sixteens := s1.1 }

/-- One full iteration: the cascade followed by
`total = _mm256_add_epi64(total, popcnt_m256i(sixteens))`. -/
def hs256Step (st : HsAvxState)
    (d0 d1 d2 d3 d4 d5 d6 d7 d8 d9 d10 d11 d12 d13 d14 d15 : Nat) : HsAvxState :=
  let st' := hs256Cascade st d0 d1 d2 d3 d4 d5 d6 d7 d8 d9 d10 d11 d12 d13 d14 d15
  { st' with total := LibPopcnt.add_epi64 st'.total (popcnt_m256i st'.sixteens) }

/-- The main loop of `popcnt_harley_seal_avx2` (runs while at least 16
vectors remain, per `limit = size - size % 16`). -/
def hs256Loop : HsAvxState → List Nat → HsAvxState × List Nat
  | st, d0 :: d1 :: d2 :: d3 :: d4 :: d5 :: d6 :: d7 ::
      d8 :: d9 :: d10 :: d11 :: d12 :: d13 :: d14 :: d15 :: rest =>
    hs256Loop (hs256Step st d0 d1 d2 d3 d4 d5 d6 d7 d8 d9 d10 d11 d12 d13 d14 d15) rest
  | st, rest => (st, rest)

/-- Embedding of `popcnt_harley_seal_avx2` (src/popcnt.h lines 185-235) on
the list of loaded 256-bit vectors. -/
def popcnt_harley_seal_avx2 (data : List Nat) : Nat :=
  if data.length = 0 then 0
  else
    let sr := hs256Loop ⟨0, 0, 0, 0, 0, 0⟩ data
    let total := LibPopcnt.slli_epi64 sr.1.total 4
    let total := LibPopcnt.add_epi64 total (LibPopcnt.slli_epi64 (popcnt_m256i sr.1.eights) 3)
    let total := LibPopcnt.add_epi64 total (LibPopcnt.slli_epi64 (popcnt_m256i sr.1.fours) 2)
    let total := LibPopcnt.add_epi64 total (LibPopcnt.slli_epi64 (popcnt_m256i sr.1.twos) 1)
    let total := LibPopcnt.add_epi64 total (popcnt_m256i sr.1.ones)
    let total := sr.2.foldl (fun t v => LibPopcnt.add_epi64 t (popcnt_m256i v)) total
    (((LibPopcnt.vLane64 total 0 + LibPopcnt.vLane64 total 1) % 2 ^ 64
        + LibPopcnt.vLane64 total 2) % 2 ^ 64 + LibPopcnt.vLane64 total 3) % 2 ^ 64

/-- The 4-way unrolled loop of `popcnt64_unrolled` (src/popcnt.h lines
146-152): four independent 64-bit running sums consumed in round-robin. -/
def unrolledLoop : (Nat × Nat × Nat × Nat) → List Nat → (Nat × Nat × Nat × Nat) × List Nat
  | (s0, s1, s2, s3), a :: b :: c :: d :: rest =>
    unrolledLoop ((s0 + hwPopcnt64 a) % 2 ^ 64, (s1 + hwPopcnt64 b) % 2 ^ 64,
      (s2 + hwPopcnt64 c) % 2 ^ 64, (s3 + hwPopcnt64 d) % 2 ^ 64) rest
  | s, rest => (s, rest)

/-- Embedding of `popcnt64_unrolled` (src/popcnt.h lines 134-161, the
`HAVE_POPCNT64` branch).  The argument is the array of 64-bit words
`data[0..size)`: the loop bound `limit = size - size % 4` runs the 4-way
unrolled body while at least four words remain. -/
def popcnt64_unrolled (ws : List Nat) : Nat :=
  if ws.length = 0 then 0
  else
    let sr := unrolledLoop (0, 0, 0, 0) ws
    let total := (((sr.1.1 + sr.1.2.1) % 2 ^ 64 + sr.1.2.2.1) % 2 ^ 64 + sr.1.2.2.2) % 2 ^ 64
    sr.2.foldl (fun t d => (t + hwPopcnt64 d) % 2 ^ 64) total

/-- Little-endian load of `w` bytes at byte offset `off` of the buffer.
Bytes beyond the end of the buffer are modelled as 0 — the most favourable
choice for the code, which actually reads unspecified adjacent memory
there. -/
def loadLE (data : List Nat) (off w : Nat) : Nat :=
  LibPopcnt.bytesVal ((List.range w).map fun k => data.getD (off + k) 0 % 256)

/-- Embedding of `popcnt` from src/popcnt.h (lines 237-248):

* `popcnt_harley_seal_avx2((const __m256i*) data, size / 32)` consumes the
  leading whole 32-byte vectors;
* `popcnt64_unrolled((const uint64_t*)(data + size - size % 32), size % 32)`
  is called, as in the source, with the byte remainder `size % 32` as its
  word count, so it loads that many whole 64-bit words from the tail offset;
* the final loop adds the bytes from `size - size % 8` per-byte.

All three totals are accumulated with 64-bit additions. -/
def popcnt (data : List Nat) : Nat :=
  let size := data.length
  let vecs := (List.range (size / 32)).map fun i => loadLE data (32 * i) 32
  let ws := (List.range (size % 32)).map fun i => loadLE data (size - size % 32 + 8 * i) 8
  let total := (popcnt_harley_seal_avx2 vecs + popcnt64_unrolled ws) % 2 ^ 64
  (List.range (size % 8)).foldl
    (fun t i => (t + hwPopcnt64 (data.getD (size - size % 8 + i) 0)) % 2 ^ 64) total

end PopcntH

/-- C1 (code bug): the per-byte summation contract fails for the `popcnt`
of src/popcnt.h.  On the 9-byte buffer of `0xFF` bytes the independent
per-byte reference totals 72, but `popcnt` returns 80 (even with the
out-of-buffer bytes it reads modelled as 0): it passes the byte remainder
`size % 32 = 9` to `popcnt64_unrolled` as a 64-bit word count, so the words
it counts cover the buffer once more, and the final per-byte loop then
recounts byte 8. -/
theorem C1_popcnt_h_miscounts :
    PopcntH.popcnt (List.replicate 9 0xFF) = 80 ∧
      ((List.replicate 9 0xFF).map LibPopcnt.popcount).sum = 72 ∧
      PopcntH.popcnt (List.replicate 9 0xFF)
        ≠ ((List.replicate 9 0xFF).map LibPopcnt.popcount).sum := by
  refine ⟨by decide, by decide, by decide⟩

namespace LibPopcnt

/-! ### CPUID feature bits (src/libpopcnt.h lines 253-264) -/

/-- `%ebx` bit flag `bit_AVX2 = 1 << 5`. -/
def bit_AVX2 : Nat := 1 <<< 5

/-- `%ebx` bit flag `bit_AVX512F = 1 << 16`. -/
def bit_AVX512F : Nat := 1 <<< 16

/-- `%ecx` bit flag `bit_POPCNT = 1 << 23`. -/
def bit_POPCNT : Nat := 1 <<< 23

/-- `%ecx` bit flag `bit_AVX512_VPOPCNTDQ = 1 << 14`. -/
def bit_AVX512_VPOPCNTDQ : Nat := 1 <<< 14

/-- `xgetbv` bit flag `XSTATE_SSE = 1 << 1`. -/
def XSTATE_SSE : Nat := 1 <<< 1

/-- `xgetbv` bit flag `XSTATE_YMM = 1 << 2`. -/
def XSTATE_YMM : Nat := 1 <<< 2

/-- `xgetbv` bit flag `XSTATE_ZMM = 7 << 5`. -/
def XSTATE_ZMM : Nat := 7 <<< 5

/-- Embedding of `get_cpuid` (src/libpopcnt.h lines 317-358).  The hardware
queries are parameters: `ecx1` is `%ecx` of `cpuid(1,0)`, `ebx7`/`ecx7` are
`%ebx`/`%ecx` of `cpuid(7,0)`, and `xcr0` is the `xgetbv(0)` value; the
booleans record whether `HAVE_AVX2`/`HAVE_AVX512` are compiled in (the block
between them is under `#if defined(HAVE_AVX2) || defined(HAVE_AVX512)`). -/
def get_cpuid (haveAvx2 haveAvx512 : Bool) (ecx1 ebx7 ecx7 xcr0 : Nat) : Nat :=
  let flags :=
    if ecx1 &&& bit_POPCNT = bit_POPCNT then bit_POPCNT else 0
  if haveAvx2 || haveAvx512 then
    let osxsave_mask := 1 <<< 27
    if ¬(ecx1 &&& osxsave_mask = osxsave_mask) then 0
    else
      let ymm_mask := XSTATE_SSE ||| XSTATE_YMM
      let zmm_mask := XSTATE_SSE ||| XSTATE_YMM ||| XSTATE_ZMM
      if xcr0 &&& ymm_mask = ymm_mask then
        let flags := if ebx7 &&& bit_AVX2 = bit_AVX2 then flags ||| bit_AVX2 else flags
        if xcr0 &&& zmm_mask = zmm_mask then
          if ebx7 &&& bit_AVX512F = bit_AVX512F ∧
              ecx7 &&& bit_AVX512_VPOPCNTDQ = bit_AVX512_VPOPCNTDQ then
            flags ||| bit_AVX512_VPOPCNTDQ
          else flags
        else flags
      else flags
  else flags

/-! ### Memory model and instrumented dispatchers

Memory is a partial map from byte addresses to byte values (`none` means the
address is not readable — e.g. past the caller's buffer, or anywhere at all
for a null pointer).  Every dispatcher embedding returns, besides its
optional value (`none` when it read an unreadable address), the trace of
memory accesses it performs as `(address, width)` pairs, and for the x86
variant also the kernel tiers it invokes with the number of bytes remaining
at the invocation. -/

/-- A byte-addressed partial memory. -/
def Mem : Type := Nat → Option Nat

/-- A memory access: address and width in bytes. -/
abbrev Read := Nat × Nat

/-- The kernel tiers of the x86 dispatcher. -/
inductive Tier
  | avx512
  | avx2
  | popcnt
  | bitwise
deriving DecidableEq

/-- Little-endian load of `w` bytes at address `a`. -/
def readLE (mem : Mem) : Nat → Nat → Option Nat
  | _, 0 => some 0
  | a, w + 1 =>
    match mem a, readLE mem (a + 1) w with
    | some b, some v => some (b % 256 + 256 * v)
    | _, _ => none

/-- 64-bit wrap-around addition of two optional counters. -/
def addOpt (x y : Option Nat) : Option Nat :=
  match x, y with
  | some u, some v => some ((u + v) % 2 ^ 64)
  | _, _ => none

/-- A loop of `k` single-byte reads starting at `base + i`, counting each
byte with the word counter `pc` (`cnt += popcnt64(ptr[i]); i++`). -/
def byteLoop (pc : Nat → Nat) (mem : Mem) (base : Nat) :
    Nat → Nat → Option Nat × List Read
  | 0, _ => (some 0, [])
  | k + 1, i =>
    let r := readLE mem (base + i) 1
    let rest := byteLoop pc mem base k (i + 1)
    (addOpt (r.map pc) rest.1, (base + i, 1) :: rest.2)

/-- A loop of `k` 8-byte word reads starting at `base + i`, stepping by 8 and
counting each word with the word counter `pc` (`popcnt64` for the hardware
paths, `popcnt64_bitwise` for the portable x86 path). -/
def wordLoop (pc : Nat → Nat) (mem : Mem) (base : Nat) :
    Nat → Nat → Option Nat × List Read
  | 0, _ => (some 0, [])
  | k + 1, i =>
    let r := readLE mem (base + i) 8
    let rest := wordLoop pc mem base k (i + 8)
    (addOpt (r.map pc) rest.1, (base + i, 8) :: rest.2)

/-- Embedding of `popcnt_avx512` (src/libpopcnt.h lines 477-495) over
memory: `n` is the word count.  The main loop performs a full 64-byte load
while `i + 8 < n` (hence `(n-1)/8` iterations), and the epilogue performs one
masked load `_mm512_maskz_loadu_epi64` whose mask `0xff >> (i + 8 - n)`
activates exactly the `n - 8·(n-1)/8` remaining lanes — inactive lanes access
no memory.  `_mm512_popcnt_epi64` and `_mm512_reduce_add_epi64` are modelled
by their composite semantics, the total population count of the loaded words
(the per-lane counts, at most 64 each, cannot overflow their 64-bit lanes). -/
def popcnt_avx512 (mem : Mem) (a n : Nat) : Option Nat × List Read :=
  let t := (n - 1) / 8
  let m := n - 8 * t
  let reads := ((List.range t).map fun j => (a + 64 * j, 64)) ++
    (if m = 0 then [] else [(a + 64 * t, 8 * m)])
  ((readLE mem a (8 * n)).map popcount, reads)

/-- `popcnt_avx2` (src/libpopcnt.h lines 415-465) over memory: `n` is the
vector count; each loop iteration performs 32-byte loads
(`_mm256_loadu_si256`).  The loads are pure, so the kernel value is
`popcnt_avx2` applied to the list of loaded vectors. -/
def popcnt_avx2_mem (mem : Mem) (a n : Nat) : Option Nat × List Read :=
  let reads := (List.range n).map fun j => (a + 32 * j, 32)
  match (List.range n).mapM fun j => readLE mem (a + 32 * j) 32 with
  | some vecs => (some (popcnt_avx2 vecs), reads)
  | none => (none, reads)

/-- Compile-time configuration and cached CPUID flags of the x86 `popcnt`
(src/libpopcnt.h lines 507-614). -/
structure Cfg where
  /-- `HAVE_AVX512` is defined. -/
  haveAvx512 : Bool
  /-- `__AVX512__`, or `__AVX512F__` and `__AVX512VPOPCNTDQ__`: the AVX512
  tier is compiled without a CPUID check. -/
  avx512Static : Bool
  /-- `HAVE_AVX2` is defined. -/
  haveAvx2 : Bool
  /-- `__AVX2__`: the AVX2 tier is compiled without a CPUID check. -/
  avx2Static : Bool
  /-- `HAVE_POPCNT` is defined. -/
  havePopcnt : Bool
  /-- `__POPCNT__`: the POPCNT tier is compiled without a CPUID check. -/
  popcntStatic : Bool
  /-- The cached `get_cpuid()` value. -/
  cpuid : Nat

/-- The result of an instrumented dispatcher run. -/
structure Run where
  val : Option Nat
  reads : List Read
  tiers : List (Tier × Nat)

/-- The scalar tail of the x86 `popcnt` (src/libpopcnt.h lines 569-613),
entered with `i` bytes already consumed (`i` is 0 or `size - size % 8` or
`size - size % 32`, all multiples of 8).  The POPCNT tier runs the 8-byte
word loop up to `size - size % 8` with the hardware `popcnt64` (the exact
`popcount`) and then a per-byte loop; the portable tier runs the same word
loop with `popcnt64_bitwise` and then one `memcpy` of the remaining
`size - i < 8` bytes into a zero-initialised word. -/
def scalarTail (cfg : Cfg) (mem : Mem) (a size i : Nat) (v : Option Nat)
    (reads : List Read) (tiers : List (Tier × Nat)) : Run :=
  let limit := size - size % 8
  let words := (limit - i + 7) / 8
  if cfg.havePopcnt && (cfg.popcntStatic || decide (cfg.cpuid &&& bit_POPCNT ≠ 0)) then
    let wl := wordLoop popcount mem a words i
    let bl := byteLoop popcount mem a (size % 8) limit
    { val := addOpt v (addOpt wl.1 bl.1), reads := reads ++ wl.2 ++ bl.2,
      tiers := tiers ++ [(Tier.popcnt, size - i)] }
  else
    let wl := wordLoop popcnt64_bitwise mem a words i
    let tail :=
      if size % 8 = 0 then (some 0, ([] : List Read))
      else ((readLE mem (a + limit) (size % 8)).map popcnt64_bitwise,
        [(a + limit, size % 8)])
    { val := addOpt v (addOpt wl.1 tail.1), reads := reads ++ wl.2 ++ tail.2,
      tiers := tiers ++ [(Tier.bitwise, size - i)] }

/-- The AVX512 tier of the x86 `popcnt` (src/libpopcnt.h lines 538-552): it
runs when `HAVE_AVX512` is compiled in, its CPUID bit is set (or the tier is
compiled unconditionally), and `i + 32 <= size` with `i = 0`; it consumes
`(size - i)/8` words and leaves `i = size - size % 8`.  The result is the
state `(i, cnt, reads, tiers)` after the tier. -/
def vecStage1 (cfg : Cfg) (mem : Mem) (a size : Nat) :
    Nat × Option Nat × List Read × List (Tier × Nat) :=
  if cfg.haveAvx512 && (cfg.avx512Static || decide (cfg.cpuid &&& bit_AVX512_VPOPCNTDQ ≠ 0))
      && decide (0 + 32 ≤ size) then
    let r := popcnt_avx512 mem (a + 0) ((size - 0) / 8)
    (size - size % 8, r.1, r.2, [(Tier.avx512, size - 0)])
  else (0, some 0, ([] : List Read), ([] : List (Tier × Nat)))

/-- The AVX2 tier of the x86 `popcnt` (src/libpopcnt.h lines 554-567),
following the AVX512 tier: it runs when `HAVE_AVX2` is compiled in, its
CPUID bit is set (or the tier is compiled unconditionally), and
`i + 512 <= size`; it consumes `(size - i)/32` vectors and leaves
`i = size - size % 32`.  (After the AVX512 tier, `i + 512 <= size` would
force `size % 8 >= 512`, so the two vector tiers are mutually exclusive, as
in the source.) -/
def vecStage2 (cfg : Cfg) (mem : Mem) (a size : Nat) :
    Nat × Option Nat × List Read × List (Tier × Nat) :=
  let s1 := vecStage1 cfg mem a size
  let i1 := s1.1
  if cfg.haveAvx2 && (cfg.avx2Static || decide (cfg.cpuid &&& bit_AVX2 ≠ 0))
      && decide (i1 + 512 ≤ size) then
    let r := popcnt_avx2_mem mem (a + i1) ((size - i1) / 32)
    (size - size % 32, addOpt s1.2.1 r.1, s1.2.2.1 ++ r.2,
      s1.2.2.2 ++ [(Tier.avx2, size - i1)])
  else s1

/-- Embedding of the x86 `popcnt` (src/libpopcnt.h lines 507-614) over
memory, with its read trace and invoked-tier trace: the two vector tiers
followed by the scalar tail. -/
def popcnt_x86 (cfg : Cfg) (mem : Mem) (a size : Nat) : Run :=
  let s2 := vecStage2 cfg mem a size
  scalarTail cfg mem a size s2.1 s2.2.1 s2.2.2.1 s2.2.2.2

/-- Embedding of the SVE `popcnt` (src/libpopcnt.h lines 626-654) over
memory.  `k` is `svcntd()`, the number of 64-bit lanes per vector
(positive).  The do-while body executes `max 1 ⌈size64 / k⌉` times; trip `j`
loads, under the `svwhilelt_b64` predicate, exactly the active lanes
`k·j ≤ w < min(k·(j+1), size64)` — a trip with no active lanes (only
possible on the very first trip of a short buffer) accesses no memory.
`svcnt_u64_z`, `svadd_u64_z` and `svaddv_u64` are modelled by their
composite semantics, the total population count of the loaded words.  The
final `memcpy` of the remaining `size % 8` bytes reads from `&ptr64[i]`
with the loop counter `i = k · trips`, which exceeds `size64` whenever `k`
does not divide `size64` — the embedding keeps that address faithfully. -/
def popcnt_sve (k : Nat) (mem : Mem) (a size : Nat) : Option Nat × List Read :=
  let size64 := size / 8
  let trips := max 1 ((size64 + k - 1) / k)
  let reads := (List.range trips).filterMap fun j =>
    let m := min k (size64 - k * j)
    if m = 0 then none else some (a + 8 * (k * j), 8 * m)
  let body := (readLE mem a (8 * size64)).map popcount
  let iEnd := k * trips
  if size % 8 = 0 then (body, reads)
  else
    (addOpt body ((readLE mem (a + 8 * iEnd) (size % 8)).map popcount),
      reads ++ [(a + 8 * iEnd, size % 8)])

/-- Embedding of the NEON `popcnt` (src/libpopcnt.h lines 672-752) over
memory.  When `size >= 64` the vector part consumes `size / 64` chunks of 64
bytes with `vld4q_u8`; the `vcntq_u8`/`vaddq_u8`/`vpadalq`/`vst1q_u64`
pipeline (whose 8-bit lanes cannot overflow thanks to the 31-iteration
regrouping) is modelled by its composite semantics, the total population
count of the loaded chunks.  Afterwards `size %= 64` and the pointer has
advanced.  With `__ARM_FEATURE_UNALIGNED` (parameter `unaligned`) the word
loop reads unaligned 8-byte words up to `size - size % 8`; otherwise, if
`i + 8 <= size`, the code first counts bytes one at a time until the pointer
is 8-aligned and then runs the word loop (with the same
`i < size - size % 8` bound).  The final `memcpy` covers the bytes left
below `size`. -/
def popcnt_neon (unaligned : Bool) (mem : Mem) (a size : Nat) : Option Nat × List Read :=
  let chunks := size / 64
  let vecPart :=
    if 64 ≤ size then
      (((readLE mem a (64 * chunks)).map popcount),
        (List.range chunks).map fun j => (a + 64 * j, 64))
    else (some 0, ([] : List Read))
  let base := if 64 ≤ size then a + 64 * chunks else a
  let sz := if 64 ≤ size then size % 64 else size
  let rest :=
    if unaligned then
      let wl := wordLoop popcount mem base ((sz - sz % 8 + 7) / 8) 0
      let iEnd := 8 * ((sz - sz % 8 + 7) / 8)
      let tail :=
        if iEnd < sz then
          ((readLE mem (base + iEnd) (sz - iEnd)).map popcount, [(base + iEnd, sz - iEnd)])
        else (some 0, ([] : List Read))
      (addOpt wl.1 tail.1, wl.2 ++ tail.2)
    else
      if 0 + 8 ≤ sz then
        let k := (8 - base % 8) % 8
        let al := byteLoop popcount mem base k 0
        let words := (sz - sz % 8 - k + 7) / 8
        let wl := wordLoop popcount mem base words k
        let iEnd := k + 8 * words
        let tail :=
          if iEnd < sz then
            ((readLE mem (base + iEnd) (sz - iEnd)).map popcount,
              [(base + iEnd, sz - iEnd)])
          else (some 0, ([] : List Read))
        (addOpt al.1 (addOpt wl.1 tail.1), al.2 ++ wl.2 ++ tail.2)
      else
        if 0 < sz then
          ((readLE mem base sz).map popcount, [(base, sz)])
        else (some 0, ([] : List Read))
  (addOpt vecPart.1 rest.1, vecPart.2 ++ rest.2)

/-- Embedding of the generic `popcnt` (src/libpopcnt.h lines 762-785) over
memory.  When `size >= 8` the code counts bytes one at a time until the
pointer is 8-byte aligned (`(8 - a % 8) % 8` bytes), then reads aligned
8-byte words while `i < size - size % 8`, and the final loop counts the
remaining bytes one at a time. -/
def popcnt_generic (mem : Mem) (a size : Nat) : Option Nat × List Read :=
  if 8 ≤ size then
    let k := (8 - a % 8) % 8
    let al := byteLoop popcount mem a k 0
    let words := (size - size % 8 - k + 7) / 8
    let wl := wordLoop popcount mem a words k
    let iEnd := k + 8 * words
    let bl := byteLoop popcount mem a (size - iEnd) iEnd
    (addOpt al.1 (addOpt wl.1 bl.1), al.2 ++ wl.2 ++ bl.2)
  else
    let bl := byteLoop popcount mem a size 0
    (bl.1, bl.2)

end LibPopcnt

/-- C2: for every 64-bit unsigned word `x`, the portable bit-manipulation word
counter `popcnt64_bitwise x` returns exactly the number of 1 bits in `x`, an
integer in the range `[0, 64]`. -/
theorem C2_popcnt64_bitwise_exact (x : Nat) (hx : x < 2 ^ 64) :
    LibPopcnt.popcnt64_bitwise x = LibPopcnt.popcount x ∧
      LibPopcnt.popcnt64_bitwise x ≤ 64 := by
  have h := LibPopcnt.popcnt64_bitwise_eq_popcount hx
  refine ⟨h, ?_⟩
  rw [h]
  exact LibPopcnt.popcount_le_of_lt_two_pow hx

/-- Witness for C2 at the concrete all-ones word. -/
theorem C2_popcnt64_bitwise_exact_witness :
    (0xFFFFFFFFFFFFFFFF : Nat) < 2 ^ 64 ∧
      (LibPopcnt.popcnt64_bitwise 0xFFFFFFFFFFFFFFFF = LibPopcnt.popcount 0xFFFFFFFFFFFFFFFF ∧
        LibPopcnt.popcnt64_bitwise 0xFFFFFFFFFFFFFFFF ≤ 64) :=
  ⟨by decide, C2_popcnt64_bitwise_exact 0xFFFFFFFFFFFFFFFF (by decide)⟩

/-- C3: for every 64-bit unsigned word `x`, each selected hardware/builtin
variant of `popcnt64` returns a result bit-identical to the portable variant
`popcnt64_bitwise x`. -/
theorem C3_popcnt64_variants_eq_bitwise (impl : LibPopcnt.Popcnt64Impl) (x : Nat)
    (hx : x < 2 ^ 64) : LibPopcnt.popcnt64 impl x = LibPopcnt.popcnt64_bitwise x := by
  have hpc := LibPopcnt.popcnt64_bitwise_eq_popcount hx
  cases impl <;>
    simp only [LibPopcnt.popcnt64, hpc, ← LibPopcnt.popcount_split_32 hx]

/-- Witness for C3: the asm variant at a concrete word. -/
theorem C3_popcnt64_variants_eq_bitwise_witness :
    (0x123456789ABCDEF0 : Nat) < 2 ^ 64 ∧
      LibPopcnt.popcnt64 LibPopcnt.Popcnt64Impl.asm_i386 0x123456789ABCDEF0 =
        LibPopcnt.popcnt64_bitwise 0x123456789ABCDEF0 :=
  ⟨by decide,
    C3_popcnt64_variants_eq_bitwise LibPopcnt.Popcnt64Impl.asm_i386 0x123456789ABCDEF0
      (by decide)⟩

namespace LibPopcnt

/-- The read trace of `byteLoop` is the `k` single-byte addresses from
`base + i` on. -/
theorem byteLoop_reads (pc : Nat → Nat) (mem : Mem) (base k : Nat) :
    ∀ i, (byteLoop pc mem base k i).2 =
      (List.range k).map fun j => (base + (i + j), 1) := by
  induction k with
  | zero => intro i; rfl
  | succ n ih =>
    intro i
    simp only [byteLoop, List.range_succ_eq_map, List.map_cons, List.map_map, ih (i + 1)]
    refine congrArg₂ List.cons (by simp) ?_
    refine List.map_congr_left fun j _ => ?_
    simp only [Function.comp_apply]
    have h : i + 1 + j = i + (j + 1) := by omega
    rw [h]

/-- The read trace of `wordLoop` is the `k` 8-byte addresses from `base + i`
on, stepping by 8. -/
theorem wordLoop_reads (pc : Nat → Nat) (mem : Mem) (base k : Nat) :
    ∀ i, (wordLoop pc mem base k i).2 =
      (List.range k).map fun j => (base + (i + 8 * j), 8) := by
  induction k with
  | zero => intro i; rfl
  | succ n ih =>
    intro i
    simp only [wordLoop, List.range_succ_eq_map, List.map_cons, List.map_map, ih (i + 8)]
    refine congrArg₂ List.cons (by simp) ?_
    refine List.map_congr_left fun j _ => ?_
    simp only [Function.comp_apply]
    have h : i + 8 + 8 * j = i + 8 * (j + 1) := by omega
    rw [h]

/-- The tier trace of `scalarTail` appends one scalar tier — POPCNT when its
guard holds, the portable tier otherwise — invoked with `size - i` bytes
remaining. -/
theorem scalarTail_tiers (cfg : Cfg) (mem : Mem) (a size i : Nat) (v : Option Nat)
    (reads : List Read) (tiers : List (Tier × Nat)) :
    (scalarTail cfg mem a size i v reads tiers).tiers =
      tiers ++ [((if cfg.havePopcnt && (cfg.popcntStatic || decide (cfg.cpuid &&& bit_POPCNT ≠ 0))
        then Tier.popcnt else Tier.bitwise), size - i)] := by
  simp only [scalarTail]
  split <;> rfl

/-- Every tier the AVX512 stage records is the AVX512 tier. -/
theorem vecStage1_tiers (cfg : Cfg) (mem : Mem) (a size : Nat) :
    ∀ p ∈ (vecStage1 cfg mem a size).2.2.2, p.1 = Tier.avx512 := by
  simp only [vecStage1]
  split
  · intro p hp
    simp at hp
    rw [hp]
  · intro p hp
    simp at hp

/-- Whenever the AVX2 tier appears in the vector-stage tier trace, it was
invoked with at least 512 bytes remaining. -/
theorem vecStage2_avx2_bound (cfg : Cfg) (mem : Mem) (a size r : Nat)
    (h : (Tier.avx2, r) ∈ (vecStage2 cfg mem a size).2.2.2) : 512 ≤ r := by
  by_cases hc : (cfg.haveAvx2 && (cfg.avx2Static || decide (cfg.cpuid &&& bit_AVX2 ≠ 0))
      && decide ((vecStage1 cfg mem a size).1 + 512 ≤ size)) = true
  · have hproj : (vecStage2 cfg mem a size).2.2.2 =
        (vecStage1 cfg mem a size).2.2.2 ++
          [(Tier.avx2, size - (vecStage1 cfg mem a size).1)] := by
      simp only [vecStage2]
      rw [if_pos hc]
    rw [hproj] at h
    rcases List.mem_append.mp h with h | h
    · have := vecStage1_tiers cfg mem a size _ h
      simp at this
    · simp only [List.mem_singleton, Prod.mk.injEq] at h
      obtain ⟨-, hr⟩ := h
      simp only [Bool.and_eq_true] at hc
      have hle : (vecStage1 cfg mem a size).1 + 512 ≤ size := of_decide_eq_true hc.2
      omega
  · have hproj : (vecStage2 cfg mem a size).2.2.2 = (vecStage1 cfg mem a size).2.2.2 := by
      simp only [vecStage2]
      rw [if_neg hc]
    rw [hproj] at h
    have := vecStage1_tiers cfg mem a size _ h
    simp at this

/-- The tier trace of the x86 dispatcher is the vector-stage trace followed
by the one scalar tier. -/
theorem popcnt_x86_tiers (cfg : Cfg) (mem : Mem) (a size : Nat) :
    (popcnt_x86 cfg mem a size).tiers =
      (vecStage2 cfg mem a size).2.2.2 ++
        [((if cfg.havePopcnt && (cfg.popcntStatic || decide (cfg.cpuid &&& bit_POPCNT ≠ 0))
          then Tier.popcnt else Tier.bitwise), size - (vecStage2 cfg mem a size).1)] := by
  simp only [popcnt_x86]
  exact scalarTail_tiers cfg mem a size _ _ _ _

/-- The buffer used by the concrete dispatcher runs: every byte readable,
all bits set. -/
def memFF : Mem := fun _ => some 0xFF

/-- A configuration with only the POPCNT tier compiled in unconditionally
(`HAVE_POPCNT` and `__POPCNT__` defined, no AVX tiers). -/
def popcntOnlyCfg : Cfg :=
  { haveAvx512 := false, avx512Static := false, haveAvx2 := false, avx2Static := false,
    havePopcnt := true, popcntStatic := true, cpuid := 0 }

end LibPopcnt

/-- C6: a zero-length call returns 0 and performs no memory read in every
dispatcher variant — the x86 dispatcher (any configuration), the SVE variant
(any vector length `k`; its first, mandatory do-while trip has an empty
`svwhilelt_b64` predicate, so the predicated load touches no memory), the
NEON variant (either `__ARM_FEATURE_UNALIGNED` setting) and the generic
variant.  The memory `mem` and base address `a` are arbitrary, which covers
the null pointer: even a memory in which no address is readable is never
queried. -/
theorem C6_zero_size_reads_nothing :
    ∀ (cfg : LibPopcnt.Cfg) (mem : LibPopcnt.Mem) (a k : Nat) (u : Bool),
      ((LibPopcnt.popcnt_x86 cfg mem a 0).val = some 0 ∧
        (LibPopcnt.popcnt_x86 cfg mem a 0).reads = []) ∧
      LibPopcnt.popcnt_sve k mem a 0 = (some 0, []) ∧
      LibPopcnt.popcnt_neon u mem a 0 = (some 0, []) ∧
      LibPopcnt.popcnt_generic mem a 0 = (some 0, []) := by
  intro cfg mem a k u
  refine ⟨?_, ?_, ?_, ?_⟩
  · have h1 : LibPopcnt.vecStage1 cfg mem a 0 = (0, some 0, [], []) := by
      simp [LibPopcnt.vecStage1]
    have h2 : LibPopcnt.vecStage2 cfg mem a 0 = (0, some 0, [], []) := by
      simp [LibPopcnt.vecStage2, h1]
    simp only [LibPopcnt.popcnt_x86, h2]
    simp [LibPopcnt.scalarTail, LibPopcnt.wordLoop, LibPopcnt.byteLoop, LibPopcnt.addOpt]
    refine ⟨?_, ?_⟩ <;> split <;> rfl
  · have ht : (k - 1) / k = 0 := by
      rcases Nat.eq_zero_or_pos k with h | h
      · simp [h]
      · exact Nat.div_eq_of_lt (by omega)
    simp [LibPopcnt.popcnt_sve, ht, LibPopcnt.readLE, LibPopcnt.popcount_zero,
      LibPopcnt.addOpt]
  · rcases u with _ | _ <;>
      simp [LibPopcnt.popcnt_neon, LibPopcnt.wordLoop, LibPopcnt.byteLoop,
        LibPopcnt.addOpt, LibPopcnt.readLE]
  · simp [LibPopcnt.popcnt_generic, LibPopcnt.byteLoop]

/-- C7 counterexample: the x86 dispatcher performs no alignment step.  With
only the POPCNT tier compiled in, a 16-byte buffer at the unaligned address
1 is processed by two unaligned 8-byte word loads — the very first memory
access is a multi-byte load at an address that is not a multiple of 8, with
no preceding single-byte reads. -/
theorem C7_x86_counterexample :
    (LibPopcnt.popcnt_x86 LibPopcnt.popcntOnlyCfg LibPopcnt.memFF 1 16).reads =
      [(1, 8), (9, 8)] ∧ ¬(1 % 8 = 0) :=
  ⟨by decide, by decide⟩

/-- C7 (amended): only the generic dispatcher variant (and the NEON variant
without `__ARM_FEATURE_UNALIGNED`) aligns, and only to 8 bytes: when
`size >= 8` it first advances past the leading `(8 - p % 8) % 8` bytes one
at a time, counting each skipped byte with the word counter (the first reads
of its trace are exactly those single-byte reads), and every 8-byte word
load it ever performs is at an 8-byte aligned address.  The x86 dispatcher
performs deliberately unaligned loads instead (see the counterexample). -/
theorem C7_generic_variant_aligns (mem : LibPopcnt.Mem) (a size : Nat) (h8 : 8 ≤ size) :
    List.take ((8 - a % 8) % 8) (LibPopcnt.popcnt_generic mem a size).2 =
      (List.range ((8 - a % 8) % 8)).map (fun j => (a + j, 1)) ∧
    ∀ p ∈ (LibPopcnt.popcnt_generic mem a size).2, p.2 = 8 → p.1 % 8 = 0 := by
  have hgen : (LibPopcnt.popcnt_generic mem a size).2 =
      ((List.range ((8 - a % 8) % 8)).map fun j => (a + (0 + j), 1)) ++
        ((List.range ((size - size % 8 - (8 - a % 8) % 8 + 7) / 8)).map
          fun j => (a + ((8 - a % 8) % 8 + 8 * j), 8)) ++
        ((List.range (size -
            ((8 - a % 8) % 8 + 8 * ((size - size % 8 - (8 - a % 8) % 8 + 7) / 8)))).map
          fun j => (a + ((8 - a % 8) % 8 +
            8 * ((size - size % 8 - (8 - a % 8) % 8 + 7) / 8) + j), 1)) := by
    simp only [LibPopcnt.popcnt_generic]
    rw [if_pos h8]
    simp only [LibPopcnt.byteLoop_reads, LibPopcnt.wordLoop_reads]
  constructor
  · rw [hgen, List.append_assoc, List.take_left']
    · exact List.map_congr_left fun j _ => by rw [Nat.zero_add]
    · simp
  · intro p hp hw
    rw [hgen] at hp
    simp only [List.append_assoc, List.mem_append, List.mem_map, List.mem_range] at hp
    rcases hp with ⟨j, hj, rfl⟩ | ⟨j, hj, rfl⟩ | ⟨j, hj, rfl⟩
    · simp at hw
    · show (a + ((8 - a % 8) % 8 + 8 * j)) % 8 = 0
      omega
    · simp at hw

/-- C7 amended-theorem witness: the generic variant on a 12-byte buffer at
address 3 begins with the five single-byte alignment reads at addresses
3..7, and its only 8-byte load is at the aligned address 8. -/
theorem C7_generic_variant_aligns_witness :
    8 ≤ 12 ∧
      (List.take ((8 - 3 % 8) % 8) (LibPopcnt.popcnt_generic LibPopcnt.memFF 3 12).2 =
          (List.range ((8 - 3 % 8) % 8)).map (fun j => (3 + j, 1)) ∧
        ∀ p ∈ (LibPopcnt.popcnt_generic LibPopcnt.memFF 3 12).2, p.2 = 8 → p.1 % 8 = 0) :=
  ⟨by decide, C7_generic_variant_aligns LibPopcnt.memFF 3 12 (by decide)⟩

/-- C8: the x86 dispatcher invokes the AVX2 kernel only with at least 512
bytes remaining (its guard is `i + 512 <= size`), and on a 511-byte buffer —
one byte below the threshold, with the AVX512 tier not compiled in so that
AVX2 is the vector kernel at issue — no vector tier appears in the tier
trace at all: the result is produced entirely by the scalar tiers. -/
theorem C8_avx2_needs_512_bytes :
    (∀ (cfg : LibPopcnt.Cfg) (mem : LibPopcnt.Mem) (a size r : Nat),
        (LibPopcnt.Tier.avx2, r) ∈ (LibPopcnt.popcnt_x86 cfg mem a size).tiers →
          512 ≤ r) ∧
    (∀ (cfg : LibPopcnt.Cfg) (mem : LibPopcnt.Mem) (a : Nat),
        cfg.haveAvx512 = false →
        ∀ p ∈ (LibPopcnt.popcnt_x86 cfg mem a 511).tiers,
          p.1 = LibPopcnt.Tier.popcnt ∨ p.1 = LibPopcnt.Tier.bitwise) := by
  constructor
  · intro cfg mem a size r h
    rw [LibPopcnt.popcnt_x86_tiers] at h
    rcases List.mem_append.mp h with h | h
    · exact LibPopcnt.vecStage2_avx2_bound cfg mem a size r h
    · exfalso
      simp only [List.mem_singleton, Prod.mk.injEq] at h
      obtain ⟨h1, -⟩ := h
      revert h1
      split <;> intro h1 <;> exact LibPopcnt.Tier.noConfusion h1
  · intro cfg mem a hA512 p hp
    have h1 : LibPopcnt.vecStage1 cfg mem a 511 = (0, some 0, [], []) := by
      simp [LibPopcnt.vecStage1, hA512]
    have h2 : LibPopcnt.vecStage2 cfg mem a 511 = (0, some 0, [], []) := by
      simp [LibPopcnt.vecStage2, h1]
    rw [LibPopcnt.popcnt_x86_tiers, h2] at hp
    simp only [List.nil_append, List.mem_singleton] at hp
    rw [hp]
    split
    · exact Or.inl rfl
    · exact Or.inr rfl

/-- C9: whatever the CPUID feature bits (`ecx1`, `ebx7`, `ecx7`) and the
`xgetbv` value `xcr0`, `get_cpuid` reports the AVX2 flag only when the OS
has enabled the SSE and YMM state components in XCR0, and reports the
AVX512-VPOPCNTDQ flag only when the OS has additionally enabled the ZMM
state components: a CPU feature bit alone never sets either flag. -/
theorem C9_cpuid_requires_os_state :
    ∀ (ha2 ha512 : Bool) (ecx1 ebx7 ecx7 xcr0 : Nat),
      (LibPopcnt.get_cpuid ha2 ha512 ecx1 ebx7 ecx7 xcr0 &&& LibPopcnt.bit_AVX2 =
          LibPopcnt.bit_AVX2 →
        xcr0 &&& (LibPopcnt.XSTATE_SSE ||| LibPopcnt.XSTATE_YMM) =
          LibPopcnt.XSTATE_SSE ||| LibPopcnt.XSTATE_YMM) ∧
      (LibPopcnt.get_cpuid ha2 ha512 ecx1 ebx7 ecx7 xcr0 &&&
            LibPopcnt.bit_AVX512_VPOPCNTDQ = LibPopcnt.bit_AVX512_VPOPCNTDQ →
        xcr0 &&& (LibPopcnt.XSTATE_SSE ||| LibPopcnt.XSTATE_YMM ||| LibPopcnt.XSTATE_ZMM) =
          LibPopcnt.XSTATE_SSE ||| LibPopcnt.XSTATE_YMM ||| LibPopcnt.XSTATE_ZMM) := by
  intro ha2 ha512 ecx1 ebx7 ecx7 xcr0
  simp only [LibPopcnt.get_cpuid]
  split_ifs <;>
    constructor <;>
      intro hb <;>
        first
          | assumption
          | (exfalso; revert hb; decide)

/-- C10: when any vector extension probing is compiled in and the CPUID
OSXSAVE bit (bit 27 of `%ecx` of leaf 1) is clear, `get_cpuid` returns 0 —
discarding even a POPCNT feature bit present in `ecx1`, although POPCNT
needs no OS-enabled register state; with that cached value 0 (and no
static `__AVX512__`/`__AVX2__`/`__POPCNT__` flags) the x86 dispatcher runs
only the portable bit-manipulation tier. -/
theorem C10_osxsave_clear_discards_popcnt :
    (∀ (ha2 ha512 : Bool) (ecx1 ebx7 ecx7 xcr0 : Nat),
        (ha2 || ha512) = true →
        ¬(ecx1 &&& (1 <<< 27) = 1 <<< 27) →
        LibPopcnt.get_cpuid ha2 ha512 ecx1 ebx7 ecx7 xcr0 = 0) ∧
    (∀ (cfg : LibPopcnt.Cfg) (mem : LibPopcnt.Mem) (a size : Nat),
        cfg.avx512Static = false → cfg.avx2Static = false → cfg.popcntStatic = false →
        cfg.cpuid = 0 →
        (LibPopcnt.popcnt_x86 cfg mem a size).tiers = [(LibPopcnt.Tier.bitwise, size)]) := by
  constructor
  · intro ha2 ha512 ecx1 ebx7 ecx7 xcr0 h1 h2
    have h2n : ¬(ecx1 &&& 134217728 = 134217728) := by simpa using h2
    simp [LibPopcnt.get_cpuid, h1, h2n]
  · intro cfg mem a size hS1 hS2 hS3 hC
    have h1 : LibPopcnt.vecStage1 cfg mem a size = (0, some 0, [], []) := by
      simp [LibPopcnt.vecStage1, hS1, hC]
    have h2 : LibPopcnt.vecStage2 cfg mem a size = (0, some 0, [], []) := by
      simp [LibPopcnt.vecStage2, h1, hS2, hC]
    rw [LibPopcnt.popcnt_x86_tiers, h2]
    simp [hS3, hC]
